import Mathlib

/-!
Verification of the bignum core of cryptolib (src/bignum.c, src/bignum.h).

The embedding follows the source with the BM_STATIC_ALLOC configuration that
bignum.h selects: every bm_t carries an inline array of BM_MAX_SIZE = 32
unsigned 32-bit words.  The array is modelled as a l ist of naturals (each
stored value is reduced mod 2^32 exactly where the C code stores through a
uint32_t).  Return codes are modelled as Int, matching the C int returns.
Out-of-bounds array writes, which are undefined behaviour in C, are dropped
by the model (List.set is the identity beyond the length of the l ist); they
are noted at the definitions where they can arise.
-/

set_option maxRecDepth 8000

namespace Cryptolib

/-- BM_MAX_SIZE from bignum.h: maximum of 32 words, that is 1024-bit numbers. -/
def BM_MAX_SIZE : Nat := 32

/-- The word base 2^32: bignum words are uint32_t values. -/
def wB : Nat := 4294967296

/-- 2^64, the base of the uint64_t accumulators used for carries. -/
def qB : Nat := 18446744073709551616

/-- BM_SUCCESS from bignum.h. -/
def BM_SUCCESS : Int := 0

/-- BM_ERROR_NOT_A_NUMBER from bignum.h. -/
def BM_ERROR_NOT_A_NUMBER : Int := 1

/-- BM_ERROR_NUMBER_TOO_BIG from bignum.h. -/
def BM_ERROR_NUMBER_TOO_BIG : Int := 2

/-- BM_ERROR_DIV_BY_ZERO from bignum.h. -/
def BM_ERROR_DIV_BY_ZERO : Int := 5

/-- BM_ERROR_INTERNAL_ERROR from bignum.h. -/
def BM_ERROR_INTERNAL_ERROR : Int := 666

/-- BM_POS from bignum.h. -/
def BM_POS : Int := 1

/-- BM_NEG from bignum.h. -/
def BM_NEG : Int := -1

/-- BM_NAN from bignum.h: the bignum contains no number yet. -/
def BM_NAN : Int := 0

/-- The struct bm_s of bignum.h under BM_STATIC_ALLOC: sign is BM_POS, BM_NEG
or BM_NAN, size is the number of words currently significant, maxs the
capacity bookkeeping field, and b the inline array of 32 uint32_t words.
The int fields size and maxs are never negative in any reachable state, so
they are carried as Nat. -/
structure bm where
  sign : Int
  size : Nat
  maxs : Nat
  b : List Nat
deriving Repr, DecidableEq

/-- A bm_t whose array memory happens to contain zeroes, as produced by
bm_init on zero-initialised storage (static or calloc style). -/
def bm_fresh : bm := ⟨0, 0, 0, List.replicate 32 0⟩

/-- bm_init from bignum.c: size 0, sign BM_NAN, maxs 0; the array contents
are whatever the memory held before. -/
def bm_init (m : bm) : bm := { m with size := 0, sign := BM_NAN, maxs := 0 }

/-- get_size_in_longs from bignum.c: number of 32-bit words needed for n
octets. -/
def get_size_in_longs (n : Nat) : Nat := (n + 4 - 1) / 4

/-- bm_resize from bignum.c under BM_STATIC_ALLOC: a first call on a bm
with maxs 0 claims the inline array (maxs becomes BM_MAX_SIZE); any further
call fails with -BM_ERROR_NUMBER_TOO_BIG. -/
def bm_resize (r : bm) : Int × bm :=
  if r.maxs = 0 then (BM_SUCCESS, { r with maxs := BM_MAX_SIZE })
  else (-BM_ERROR_NUMBER_TOO_BIG, r)

/-- bm_set_size from bignum.c under BM_STATIC_ALLOC. -/
def bm_set_size (a : bm) (s : Nat) : Int × bm :=
  if 0 < a.maxs ∧ s > a.maxs then (-BM_ERROR_NUMBER_TOO_BIG, a)
  else (BM_SUCCESS, { a with maxs := BM_MAX_SIZE, size := s })

/-- The guarded word reads of bm_add_nosign and bm_sub_nosign:
A = 0 unless n < a->maxs, in which case A = a->b[n]. -/
def wordAt (a : bm) (n : Nat) : Nat := if n < a.maxs then a.b.getD n 0 else 0

/-- bm_is_zero from bignum.c: true iff every word below size is 0. -/
def bm_is_zero (a : bm) : Bool :=
  (List.range a.size).all (fun n => a.b.getD n 0 == 0)

/-- The loop of bm_trim: starting from n, drop words while b[n-1] is 0.
In the static struct layout the int field right before b[0] is maxs, which
is nonzero in every reachable state, so the C loop always stops when n
reaches 0; the 0 case of this function records that stop. -/
def trimSize (l : List Nat) : Nat → Nat
  | 0 => 0
  | n+1 => if l.getD n 0 = 0 then trimSize l n else n + 1

/-- bm_trim from bignum.c. -/
def bm_trim (r : bm) (n : Nat) : bm := { r with size := trimSize r.b n }

/-- The trailing loop of bm_sub_nosign: like trimSize but never drops the
size below 1. -/
def trimSize1 (l : List Nat) : Nat → Nat
  | 0 => 0
  | 1 => 1
  | n+2 => if l.getD (n+1) 0 = 0 then trimSize1 l (n+1) else n + 2

/-- The word-store loops of bignum.c write b[0], b[1], ... in order; this
replaces the first ws.length entries of l with ws.  Writes past the end of
the 32-word array are out of bounds in C and are dropped here. -/
def writeWords (l ws : List Nat) : List Nat :=
  (ws ++ l.drop ws.length).take l.length

/-- The summing loop of bm_add_nosign: from word index i, for cnt words,
with carry c; returns the stored words and the final carry.  Each step is
c = A + B + c in uint64_t, stores the low 32 bits and keeps the high ones. -/
def addChain (a b : bm) : Nat → Nat → Nat → List Nat × Nat
  | _, 0, c => ([], c)
  | i, cnt+1, c =>
    let s := wordAt a i + wordAt b i + c
    let p := addChain a b (i+1) cnt (s / wB)
    (s % wB :: p.1, p.2)

/-- bm_add_nosign from bignum.c. -/
def bm_add_nosign (r a b : bm) : Int × bm :=
  let m := max a.size b.size
  let g := if m ≥ r.maxs then bm_resize r else (BM_SUCCESS, r)
  if g.1 ≠ BM_SUCCESS then g
  else
    let p := addChain a b 0 m 0
    if p.2 ≠ 0 then
      -- r->b[n++] = c : for m = 32 this store is out of bounds in C
      (BM_SUCCESS, { g.2 with b := writeWords g.2.b (p.1 ++ [p.2 % wB]), size := m + 1 })
    else
      (BM_SUCCESS, { g.2 with b := writeWords g.2.b p.1, size := m })

/-- The subtracting loop of bm_sub_nosign: each step computes
c = A - B + c in uint64_t arithmetic (wrapping mod 2^64), stores the low
32 bits and shifts c right by 32 (a logical shift). -/
def subChain (a b : bm) : Nat → Nat → Nat → List Nat × Nat
  | _, 0, c => ([], c)
  | i, cnt+1, c =>
    let s := (wordAt a i + c + (qB - wordAt b i % qB)) % qB
    let p := subChain a b (i+1) cnt (s / wB)
    (s % wB :: p.1, p.2)

/-- bm_sub_nosign from bignum.c.  The source comment assumes the first
operand is not smaller in magnitude than the second; nothing enforces it. -/
def bm_sub_nosign (r a b : bm) : Int × bm :=
  let m := max a.size b.size
  let g := if m ≥ r.maxs then bm_resize r else (BM_SUCCESS, r)
  if g.1 ≠ BM_SUCCESS then g
  else
    let p := subChain a b 0 m 0
    let bnew := writeWords g.2.b p.1
    (BM_SUCCESS, { g.2 with b := bnew, size := trimSize1 bnew m })

/-- The word loop of bm_cmp_nosign, comparing words from index n-1 down. -/
def cmpWords (a b : bm) : Nat → Int
  | 0 => 0
  | n+1 =>
    if a.b.getD n 0 > b.b.getD n 0 then 1
    else if a.b.getD n 0 < b.b.getD n 0 then -1
    else cmpWords a b n

/-- bm_cmp_nosign from bignum.c: compares sizes first, then words from the
most significant end. -/
def bm_cmp_nosign (a b : bm) : Int :=
  if a.size < b.size then -1
  else if a.size > b.size then 1
  else cmpWords a b a.size

/-- bm_add from bignum.c.  When the signs differ the source picks the sign
from the magnitude comparison but always subtracts in a fixed operand
order, never reordering to satisfy the bm_sub_nosign precondition. -/
def bm_add (r a b : bm) : Int × bm :=
  if a.sign ≠ b.sign then
    let m := bm_cmp_nosign a b
    if a.sign = BM_POS then
      bm_sub_nosign { r with sign := if m ≥ 0 then BM_POS else BM_NEG } a b
    else
      bm_sub_nosign { r with sign := if m > 0 then BM_NEG else BM_POS } b a
  else
    bm_add_nosign { r with sign := a.sign } a b

/-- The loop of bm_add_ui: note the source adds d = v to every word, not
only to the least significant one. -/
def addUiChain (a : bm) (d : Nat) : Nat → Nat → Nat → List Nat × Nat
  | _, 0, c => ([], c)
  | i, cnt+1, c =>
    let s := a.b.getD i 0 + d + c
    let p := addUiChain a d (i+1) cnt (s / wB)
    (s % wB :: p.1, p.2)

/-- bm_add_ui from bignum.c. -/
def bm_add_ui (a : bm) (v : Nat) : Int × bm :=
  let p := addUiChain a (v % wB) 0 a.size 0
  let a1 := { a with b := writeWords a.b p.1 }
  if p.2 > 0 then
    let g := if a1.size = a1.maxs then bm_resize a1 else (BM_SUCCESS, a1)
    if g.1 ≠ BM_SUCCESS then g
    else (BM_SUCCESS, { g.2 with b := g.2.b.set g.2.size (p.2 % wB), size := g.2.size + 1 })
  else (BM_SUCCESS, a1)

/-- bm_sub from bignum.c: reorders the operands when the first magnitude is
smaller, unlike bm_add. -/
def bm_sub (r a b : bm) : Int × bm :=
  if a.sign ≠ b.sign then
    bm_add_nosign { r with sign := a.sign } a b
  else if bm_cmp_nosign a b < 0 then
    bm_sub_nosign { r with sign := if b.sign = BM_POS then BM_NEG else BM_POS } b a
  else
    bm_sub_nosign { r with sign := if a.sign = BM_POS then BM_POS else BM_NEG } a b

/-- bm_set_si from bignum.c.  The uint32_t casts are mod 2^32; for the one
int32_t value whose negation overflows the cast result is still 2^31. -/
def bm_set_si (r : bm) (l : Int) : Int × bm :=
  let g := bm_set_size r 1
  if g.1 ≠ BM_SUCCESS then g
  else if l ≥ 0 then
    (BM_SUCCESS, { g.2 with b := g.2.b.set 0 (l.toNat % wB), sign := BM_POS })
  else
    (BM_SUCCESS, { g.2 with b := g.2.b.set 0 ((-l).toNat % wB), sign := BM_NEG })

/-- bm_set_ui from bignum.c. -/
def bm_set_ui (r : bm) (l : Nat) : Int × bm :=
  let g := bm_set_size r 1
  if g.1 ≠ BM_SUCCESS then g
  else (BM_SUCCESS, { g.2 with b := g.2.b.set 0 (l % wB), sign := BM_POS })

/-- bm_set from bignum.c: copy a into d, growing d first if needed. -/
def bm_set (d a : bm) : Int × bm :=
  let g := if a.maxs > d.maxs then bm_set_size d a.maxs else (BM_SUCCESS, d)
  if g.1 ≠ BM_SUCCESS then g
  else
    (BM_SUCCESS,
      { g.2 with
        size := a.size
        sign := a.sign
        b := writeWords g.2.b (a.b.take a.size) })

/-- bm_neg from bignum.c: multiplies the sign by BM_NEG and returns
BM_SUCCESS.  The only guard in the source is assert(a->sign), which aborts
in builds with assertions and compiles out under NDEBUG; this model is the
NDEBUG semantics, under which a BM_NAN sign stays BM_NAN. -/
def bm_neg (a : bm) : Int × bm :=
  (BM_SUCCESS, { a with sign := a.sign * BM_NEG })

/-- The loop of bm_neg_b, processing the octet array from its last byte to
its first with carry c: c = (B + c + 0xff) xor 0xff, store the low 8 bits,
shift c right by 8.  Returns the final carry and the new bytes. -/
def negBytes : List Nat → Nat × List Nat
  | [] => (0, [])
  | x :: xs =>
    let p := negBytes xs
    let s := (x + p.1 + 255) ^^^ 255
    (s / 256, s % 256 :: p.2)

/-- bm_neg_b from bignum.c: in-place twos-complement negation of an octet
array. -/
def bm_neg_b (l : List Nat) : List Nat := (negBytes l).2

/-- The byte count the switch of bm_get_b derives from the top word l,
where m is the index of the top word. -/
def topByteCount (l m : Nat) : Nat :=
  if l > 0xffffff then 4
  else if l > 0xffff then 3
  else if l > 0xff then 2
  else if l > 0 then 1
  else if m > 0 then 0
  else 1

/-- The fallthrough switch of bm_get_b: emit the n lowest-position cases,
each store truncating to a byte. -/
def topBytes : Nat → Nat → List Nat
  | 4, l => [l >>> 24 % 256, l >>> 16 % 256, l >>> 8 % 256, l % 256]
  | 3, l => [l >>> 16 % 256, l >>> 8 % 256, l % 256]
  | 2, l => [l >>> 8 % 256, l % 256]
  | 1, l => [l % 256]
  | _, _ => []

/-- One full word emitted as four big-endian bytes, as in the trailing
loop of bm_get_b. -/
def word4 (w : Nat) : List Nat := [w >>> 24 % 256, w >>> 16 % 256, w >>> 8 % 256, w % 256]

/-- The trailing loop of bm_get_b: emit words m-1 down to 0, four bytes
each. -/
def lowBytes (l : List Nat) : Nat → List Nat
  | 0 => []
  | m+1 => word4 (l.getD m 0) ++ lowBytes l m

/-- bm_get_b from bignum.c.  The result is the return code paired with the
octets the function writes into the caller buffer; the source checks only
that the buffer rounded up to whole words can hold all of a, so it can
write up to three bytes past i. -/
def bm_get_b (a : bm) (i : Nat) : Int × List Nat :=
  if i < 1 then (-BM_ERROR_INTERNAL_ERROR, [])
  else if get_size_in_longs i < a.size then (-BM_ERROR_NUMBER_TOO_BIG, [])
  else
    let m := a.size - 1
    let l := a.b.getD m 0
    let n := topByteCount l m
    let bytes := topBytes n l ++ lowBytes a.b m
    let out := if a.sign = BM_NEG then bm_neg_b bytes else bytes
    ((bytes.length : Int), out)

/-- The while loop of bm_set_b, consuming the octets from the last to the
first; state is the 32-bit staging word l, the byte count n and the words
stored so far. -/
def setbLoop : List Nat → Nat → Nat → List Nat → Nat × Nat × List Nat
  | [], l, n, ws => (l, n, ws)
  | byte :: rest, l, n, ws =>
    let l1 := ((l >>> 8) ||| (byte <<< 24)) % wB
    if (n + 1) % 4 = 0 then setbLoop rest 0 (n + 1) (ws ++ [l1])
    else setbLoop rest l1 (n + 1) ws

/-- bm_set_b from bignum.c: big-endian unsigned import of an octet array.
The capacity check grows the bm at most once, as in the source. -/
def bm_set_b (r : bm) (s : List Nat) : Int × bm :=
  if s.length < 1 then (-BM_ERROR_NOT_A_NUMBER, r)
  else
    let m0 := get_size_in_longs s.length
    let g := if m0 > r.maxs then bm_resize r else (BM_SUCCESS, r)
    if g.1 ≠ BM_SUCCESS then g
    else
      let st := setbLoop s.reverse 0 0 []
      let ws := if st.2.1 % 4 ≠ 0
                then st.2.2 ++ [st.1 >>> (32 - st.2.1 % 4 * 8)]
                else st.2.2
      (BM_SUCCESS, { g.2 with b := writeWords g.2.b ws, size := ws.length, sign := BM_POS })

/-- The loop of bm_asl.  The source reads a->b[n], the shift amount, where
the loop index i is evidently meant, so every iteration shifts the same
word; i is still tracked because the recursion advances it.  For n = 0 the
carry expression A >> 32 is undefined behaviour in C; this model takes the
value 0. -/
def aslChain (a : bm) (n : Nat) : Nat → Nat → Nat → List Nat × Nat
  | _, 0, c => ([], c)
  | i, cnt+1, c =>
    let A := a.b.getD n 0
    let w := ((A <<< n) % wB ||| c) % wB
    let c1 := (A >>> (32 - n)) % wB
    let p := aslChain a n (i+1) cnt c1
    (w :: p.1, p.2)

/-- bm_asl from bignum.c: logical shift left by n mod 32 bits. -/
def bm_asl (r a : bm) (n0 : Nat) : Int × bm :=
  let n := n0 % 32
  let g := if a.size ≥ r.maxs then bm_resize r else (BM_SUCCESS, r)
  if g.1 ≠ BM_SUCCESS then g
  else
    let p := aslChain a n 0 a.size 0
    if p.2 ≠ 0 then
      (BM_SUCCESS,
        { g.2 with
          b := writeWords g.2.b (p.1 ++ [p.2])
          size := a.size + 1
          sign := a.sign })
    else
      (BM_SUCCESS, { g.2 with b := writeWords g.2.b p.1, size := a.size, sign := a.sign })

/-- The loop of bm_asr, from the top word down; returns the words for
indices 0 up to i-1 in index order.  For n = 0 the carry expression
A << 32 is undefined behaviour in C; this model takes the value 0. -/
def asrChain (a : bm) (n : Nat) (c : Nat) : Nat → List Nat
  | 0 => []
  | i+1 =>
    let A := a.b.getD i 0
    let w := ((A >>> n) ||| c) % wB
    let c1 := (A <<< (32 - n)) % wB
    asrChain a n c1 i ++ [w]

/-- bm_asr from bignum.c: shift right by n mod 32 bits, then bm_trim. -/
def bm_asr (r a : bm) (n0 : Nat) : Int × bm :=
  let n := n0 % 32
  let ws := asrChain a n 0 a.size
  let bnew := writeWords r.b ws
  (BM_SUCCESS, { r with b := bnew, size := trimSize bnew a.size, sign := a.sign })

/-- The inner loop of bm_mul for one word B of the smaller operand, writing
at offset o; cnt counts the remaining words of a1 from index i.  When the
loop ends, a nonzero carry is stored at offset o + a1.size. -/
def mulInner (a1 : bm) (B : Nat) (o : Nat) : Nat → Nat → Nat → List Nat → List Nat
  | i, 0, c, rr => if c ≠ 0 then rr.set (o + i) (c % wB) else rr
  | i, cnt+1, c, rr =>
    let A := a1.b.getD i 0
    let s := A * B + rr.getD (o + i) 0 + c
    mulInner a1 B o (i+1) cnt (s / wB) (rr.set (o + i) (s % wB))

/-- The outer loop of bm_mul over the words of b1.  The C loop variable i
is function scoped, so its value survives iterations that skip on B = 0;
the last component tracks it for the final bm_trim call.  It starts
uninitialised in C; every caller reaches this loop with at least one
nonzero word in b1, which sets it, so the initial value never matters. -/
def mulOuter (a1 b1 : bm) : Nat → Nat → List Nat → Nat → List Nat × Nat
  | _, 0, rr, iLast => (rr, iLast)
  | o, cnt+1, rr, iLast =>
    let B := b1.b.getD o 0
    if B = 0 then mulOuter a1 b1 (o+1) cnt rr iLast
    else mulOuter a1 b1 (o+1) cnt (mulInner a1 B o 0 a1.size 0 rr) a1.size

/-- bm_mul from bignum.c: schoolbook multiplication into a scratch bignum
rr, then copied to r with bm_set.  The scratch is a bm_init local whose
array memory is indeterminate; the function zeroes the first
a.size + b.size words and never reads beyond them, so the model takes the
array as zeroes.  The return code of the final bm_set is ignored by the
source. -/
def bm_mul (r a b : bm) : Int × bm :=
  let m := a.size + b.size
  if bm_is_zero a || bm_is_zero b then bm_set_si r 0
  else if m > BM_MAX_SIZE then (-BM_ERROR_NUMBER_TOO_BIG, r)
  else
    let p := if a.size ≥ b.size
             then mulOuter a b 0 b.size (List.replicate 32 0) 0
             else mulOuter b a 0 a.size (List.replicate 32 0) 0
    let mSmall := min a.size b.size
    let rr : bm := { sign := a.sign * b.sign, size := trimSize p.1 (mSmall + p.2),
                     maxs := BM_MAX_SIZE, b := p.1 }
    (BM_SUCCESS, (bm_set r rr).2)

/-- The capacity loop "while (m > x->maxs) bm_resize(x)" of bm_div under
BM_STATIC_ALLOC: at most one resize from maxs 0 can succeed. -/
def growTo (a : bm) (m : Nat) : Int × bm :=
  if m ≤ a.maxs then (BM_SUCCESS, a)
  else if a.maxs = 0 then
    if m ≤ BM_MAX_SIZE then (BM_SUCCESS, { a with maxs := BM_MAX_SIZE })
    else (-BM_ERROR_NUMBER_TOO_BIG, { a with maxs := BM_MAX_SIZE })
  else (-BM_ERROR_NUMBER_TOO_BIG, a)

/-- The repeated subtraction loop of bm_div: while the remainder compares
not below the denominator, increment the step count c (a uint32_t) and
subtract.  The loop has no termination argument in general, so it carries
fuel; the Bool reports whether the loop finished within the fuel. -/
def divSubLoop (d : bm) : Nat → bm → Nat → bm × Nat × Bool
  | 0, r, c => (r, c, false)
  | f+1, r, c =>
    if bm_cmp_nosign r d ≥ 0 then
      divSubLoop d f (bm_sub_nosign r r d).2 ((c + 1) % wB)
    else (r, c, true)

/-- The word shift at the top of each bm_div step: slide the remainder
words up one position and put w in b[0].  For a remainder of full size the
topmost store is out of bounds in C and is dropped here. -/
def shiftUpWords (l : List Nat) (size w : Nat) : List Nat :=
  (w :: l.take size ++ l.drop (size + 1)).take l.length

/-- The outer loop of bm_div over the numerator words, from the most
significant down.  Returns the code (0, an error from bm_add_ui, or the
out-of-fuel marker -777 which no C path produces) with the current q and
r. -/
def divOuter (fuel : Nat) (nn d : bm) : Nat → bm → bm → Int × bm × bm
  | 0, q, r => (BM_SUCCESS, q, r)
  | i+1, q, r =>
    let r1 : bm := { r with b := shiftUpWords r.b r.size (nn.b.getD i 0), size := r.size + 1 }
    let p := divSubLoop d fuel r1 0
    if !p.2.2 then (-777, q, p.1)
    else if p.2.1 > 0 then
      let g := bm_add_ui q p.2.1
      if g.1 ≠ BM_SUCCESS then (g.1, g.2, p.1)
      else divOuter fuel nn d i g.2 p.1
    else divOuter fuel nn d i q p.1

/-- bm_div from bignum.c.  Note the divide-by-zero branch returns the
error define itself, positive, unlike every other error return in the
file. -/
def bm_div (fuel : Nat) (q r nn d : bm) : Int × bm × bm :=
  if bm_is_zero d then (BM_ERROR_DIV_BY_ZERO, q, r)
  else
    let m := bm_cmp_nosign nn d
    if m = 0 then
      let gr := bm_set_si r 0
      if gr.1 ≠ BM_SUCCESS then (gr.1, q, gr.2)
      else
        let gq := bm_set_si q (nn.sign * d.sign)
        (gq.1, gq.2, gr.2)
    else if m < 0 then
      let gq := bm_set_si q 0
      if gq.1 ≠ BM_SUCCESS then (gq.1, gq.2, r)
      else
        let gr := bm_set r nn
        (gr.1, gq.2, gr.2)
    else
      let msz := nn.size - d.size + 1
      let gr := growTo r msz
      if gr.1 ≠ BM_SUCCESS then (gr.1, q, gr.2)
      else
        let gq := growTo q msz
        if gq.1 ≠ BM_SUCCESS then (gq.1, gq.2, gr.2)
        else
          let q0 := (bm_set_si gq.2 0).2
          let r0 : bm := { gr.2 with size := 0 }
          let p := divOuter fuel nn d nn.size q0 r0
          if p.1 ≠ BM_SUCCESS then p
          else
            let s := nn.sign * d.sign
            (BM_SUCCESS, { p.2.1 with sign := s }, { p.2.2 with sign := s })

/-- One iteration of the bm_powm loop.  All inner return codes are ignored
by the source.  The packed state is (r, bas, exp, nil, tmp). -/
def powmStep (fuel : Nat) (m : bm) (st : bm × bm × bm × bm × bm) : bm × bm × bm × bm × bm :=
  let (r, bas, exp, nil, tmp) := st
  let (r1, nil1, tmp1) :=
    if exp.b.getD 0 0 % 2 = 1 then
      let r2 := (bm_mul r r bas).2
      let tmp2 := (bm_set tmp r2).2
      let p := bm_div fuel nil r2 tmp2 m
      (p.2.2, p.2.1, tmp2)
    else (r, nil, tmp)
  let exp1 := (bm_asr exp exp 1).2
  let bas1 := (bm_mul bas bas bas).2
  let tmp2 := (bm_set tmp1 bas1).2
  let p := bm_div fuel nil1 bas1 tmp2 m
  (r1, p.2.2, exp1, p.2.1, tmp2)

/-- The while loop of bm_powm, with fuel; -777 marks fuel exhaustion,
which no C path produces for terminating runs. -/
def powmLoop (m : bm) : Nat → (bm × bm × bm × bm × bm) → Int × bm
  | 0, st => (-777, st.1)
  | f+1, st =>
    if bm_is_zero st.2.2.1 then (BM_SUCCESS, st.1)
    else powmLoop m f (powmStep (f+1) m st)

/-- bm_powm from bignum.c: square and multiply.  The locals nil, exp, bas
and tmp are bm_init local variables; every word of them that is read is
first written, so their indeterminate array memory is modelled as zero. -/
def bm_powm (fuel : Nat) (r b e m : bm) : Int × bm :=
  let g1 := bm_set_ui r 1
  if g1.1 ≠ BM_SUCCESS then g1
  else
    let g2 := bm_set bm_fresh b
    if g2.1 ≠ BM_SUCCESS then (g2.1, g1.2)
    else
      let g3 := bm_set bm_fresh e
      if g3.1 ≠ BM_SUCCESS then (g3.1, g1.2)
      else powmLoop m fuel (g1.2, g2.2, g3.2, bm_fresh, bm_fresh)

/-! Value semantics of the representation, and well-formedness. -/

/-- The natural number denoted by a l ist of base 2^32 words, least
significant first. -/
def valWords : List Nat → Nat
  | [] => 0
  | w :: ws => w + wB * valWords ws

/-- The magnitude of a bignum: the value of its first size words. -/
def magVal (a : bm) : Nat := valWords (a.b.take a.size)

/-- The signed integer a bignum denotes. -/
def intVal (a : bm) : Int := a.sign * (magVal a : Int)

/-- Well-formed bignum state: a reachable, fully set value under the
static configuration.  The capacity is claimed (maxs = 32), the array is
the full 32-word struct array, words are uint32 values, the sign is
POS or NEG, the representation is canonical (no leading zero word except
for the single-word zero), zero is positive, and the unused upper words
are zero, as the setters leave them on zeroed storage. -/
def WF (a : bm) : Prop :=
  a.maxs = 32 ∧ a.b.length = 32 ∧ 1 ≤ a.size ∧ a.size ≤ 32 ∧
  (∀ w ∈ a.b, w < wB) ∧
  (a.sign = 1 ∨ a.sign = -1) ∧
  (a.size = 1 ∨ a.b.getD (a.size - 1) 0 ≠ 0) ∧
  (magVal a = 0 → a.sign = 1) ∧
  (∀ k, k < 32 → a.size ≤ k → a.b.getD k 0 = 0)

instance (a : bm) : Decidable (WF a) := by
  unfold WF
  infer_instance

/-! Reference big-endian byte functions, used to state what the byte
conversion routines compute. -/

/-- The value of a big-endian byte string. -/
def beVal : List Nat → Nat
  | [] => 0
  | x :: xs => x * 256 ^ xs.length + beVal xs

/-- The minimal big-endian byte representation of a natural number: one
byte for values below 256, otherwise the representation of v / 256
followed by the low byte. -/
def beBytes (v : Nat) : List Nat :=
  if _h : v < 256 then [v]
  else beBytes (v / 256) ++ [v % 256]
decreasing_by exact Nat.div_lt_self (by omega) (by omega)

/-- The fixed-width k-byte big-endian representation of v mod 256^k. -/
def bePad : Nat → Nat → List Nat
  | 0, _ => []
  | k+1, v => bePad k (v / 256) ++ [v % 256]

/-- The value read by cnt guarded word reads starting at index i, least
significant first. -/
def wordVal (a : bm) : Nat → Nat → Nat
  | _, 0 => 0
  | i, cnt+1 => wordAt a i + wB * wordVal a (i+1) cnt

/-- The value of cnt direct getD reads of a word l ist starting at index
i, least significant first. -/
def getVal (l : List Nat) : Nat → Nat → Nat
  | _, 0 => 0
  | i, cnt+1 => l.getD i 0 + wB * getVal l (i+1) cnt

/-- Padding of a word l ist to the 32-entry struct array. -/
def pad32 (l : List Nat) : List Nat := l ++ List.replicate (32 - l.length) 0

/-- A concrete bignum state: sign s, significant words ws (least
significant first), zeroed upper words, capacity claimed. -/
def mkbm (s : Int) (ws : List Nat) : bm := ⟨s, ws.length, 32, pad32 ws⟩

/-! Claim theorems. -/

/-- C2: bm_powm with base 4, exponent 13 and modulus 497, each built with
the unsigned setter on an initialised bignum, returns BM_SUCCESS and the
result bignum holds the value 445. -/
theorem claim_C2_powm_concrete_vector :
    (bm_powm 1000 bm_fresh (bm_set_ui bm_fresh 4).2 (bm_set_ui bm_fresh 13).2
      (bm_set_ui bm_fresh 497).2).1 = BM_SUCCESS ∧
    intVal (bm_powm 1000 bm_fresh (bm_set_ui bm_fresh 4).2 (bm_set_ui bm_fresh 13).2
      (bm_set_ui bm_fresh 497).2).2 = 445 := by decide

/-- C1: the division invariant fails on the code.  For numerator 2^32 + 1
and denominator 1, bm_div returns BM_SUCCESS with quotient 2 and
remainder 0, so a = q * b + rem does not hold: the long division loop adds
each quotient digit into q without shifting q by a word between steps. -/
theorem claim_C1_div_invariant_violated :
    (bm_div 1000 bm_fresh bm_fresh (mkbm 1 [1, 1]) (mkbm 1 [1])).1 = BM_SUCCESS ∧
    intVal (bm_div 1000 bm_fresh bm_fresh (mkbm 1 [1, 1]) (mkbm 1 [1])).2.1 = 2 ∧
    intVal (bm_div 1000 bm_fresh bm_fresh (mkbm 1 [1, 1]) (mkbm 1 [1])).2.2 = 0 ∧
    intVal (mkbm 1 [1, 1]) ≠
      intVal (bm_div 1000 bm_fresh bm_fresh (mkbm 1 [1, 1]) (mkbm 1 [1])).2.1 *
        intVal (mkbm 1 [1]) +
      intVal (bm_div 1000 bm_fresh bm_fresh (mkbm 1 [1, 1]) (mkbm 1 [1])).2.2 := by decide

/-- C4: dividing by a denominator of magnitude zero returns the error
define BM_ERROR_DIV_BY_ZERO itself, a positive value, not its negation as
the stated negative-result convention requires; the outputs are left
unchanged. -/
theorem claim_C4_div_by_zero_positive_code :
    bm_div 10 (mkbm 1 [7]) (mkbm 1 [9]) (mkbm 1 [3]) (mkbm 1 [0]) =
      (BM_ERROR_DIV_BY_ZERO, mkbm 1 [7], mkbm 1 [9]) ∧
    0 < BM_ERROR_DIV_BY_ZERO := by decide

/-- C6: bm_asl does not shift by n bits: shifting the two-word value 2^32
left by one bit returns success with magnitude 2^33 + 2 instead of 2^33,
because the loop body reads the word at index n, the shift amount, instead
of the loop index. -/
theorem claim_C6_asl_wrong_word :
    (bm_asl bm_fresh (mkbm 1 [0, 1]) 1).1 = BM_SUCCESS ∧
    magVal (bm_asl bm_fresh (mkbm 1 [0, 1]) 1).2 = 2 ^ 33 + 2 ∧
    magVal (bm_asl bm_fresh (mkbm 1 [0, 1]) 1).2 ≠ magVal (mkbm 1 [0, 1]) * 2 ^ 1 := by
  decide

/-- C7: adding a zero bignum is not the identity.  For a = -5, bm_add of a
and zero returns BM_SUCCESS but the value -(2^32 - 5): the mixed-sign
branch of bm_add subtracts the magnitudes in a fixed order and here
computes 0 - 5 with wraparound instead of reordering the operands. -/
theorem claim_C7_add_zero_not_identity :
    (bm_add bm_fresh (mkbm (-1) [5]) (mkbm 1 [0])).1 = BM_SUCCESS ∧
    intVal (bm_add bm_fresh (mkbm (-1) [5]) (mkbm 1 [0])).2 = -4294967291 ∧
    intVal (bm_add bm_fresh (mkbm (-1) [5]) (mkbm 1 [0])).2 ≠ intVal (mkbm (-1) [5]) := by
  decide

/-- C9 counterexample: bm_neg on a freshly initialised, never set bignum
does not fail: it returns BM_SUCCESS, which is not the negated
NOT_A_NUMBER error, and the sign stays BM_NAN. -/
theorem claim_C9_neg_counterexample :
    (bm_neg (bm_init bm_fresh)).1 = BM_SUCCESS ∧
    (bm_neg (bm_init bm_fresh)).2.sign = BM_NAN ∧
    BM_SUCCESS ≠ -BM_ERROR_NOT_A_NUMBER := by decide

/-- C9 amended: on a bignum that holds a number (sign POS or NEG) bm_neg
returns BM_SUCCESS and flips the sign in place, leaving everything else
unchanged. -/
theorem claim_C9_neg_flips_sign (a : bm) (h : a.sign = BM_POS ∨ a.sign = BM_NEG) :
    bm_neg a = (BM_SUCCESS, { a with sign := -a.sign }) := by
  rcases h with h | h <;> simp [bm_neg, h, BM_POS, BM_NEG, BM_SUCCESS]

/-- Witness for the C9 amended theorem at the bignum -5. -/
theorem claim_C9_neg_flips_sign_witness :
    bm_neg (mkbm (-1) [5]) = (BM_SUCCESS, { mkbm (-1) [5] with sign := -(mkbm (-1) [5]).sign }) :=
  claim_C9_neg_flips_sign (mkbm (-1) [5]) (by decide)

/-- C3 counterexample: negative zero is observable: bm_sub of -5 and -5
returns success with magnitude 0 and sign NEGATIVE. -/
theorem claim_C3_negative_zero_counterexample :
    (bm_sub bm_fresh (mkbm (-1) [5]) (mkbm (-1) [5])).1 = BM_SUCCESS ∧
    magVal (bm_sub bm_fresh (mkbm (-1) [5]) (mkbm (-1) [5])).2 = 0 ∧
    (bm_sub bm_fresh (mkbm (-1) [5]) (mkbm (-1) [5])).2.sign = BM_NEG := by decide

/-- C5 counterexample: the byte round trip fails for strings with a
leading zero byte: importing the two bytes 00 01 and exporting with a
buffer of the original length returns one byte, 01, not the original
string. -/
theorem claim_C5_roundtrip_counterexample :
    bm_get_b (bm_set_b bm_fresh [0, 1]).2 2 = (1, [1]) ∧
    bm_get_b (bm_set_b bm_fresh [0, 1]).2 2 ≠ ((2 : Int), [0, 1]) := by decide

/-- C8 counterexample: bm_get_b does not return NUMBER_TOO_BIG whenever
the minimal representation exceeds the buffer: for magnitude 258, whose
minimal big-endian form has 2 bytes, and a buffer of length 1, it returns
2 and produces two bytes, overrunning the buffer. -/
theorem claim_C8_toobig_counterexample :
    bm_get_b (mkbm 1 [258]) 1 = (2, [1, 2]) ∧
    (beBytes (magVal (mkbm 1 [258]))).length = 2 ∧
    ¬(bm_get_b (mkbm 1 [258]) 1).1 < 0 := by
  refine ⟨by decide, ?_, by decide⟩
  have h : magVal (mkbm 1 [258]) = 258 := by decide
  rw [h, beBytes, beBytes]
  norm_num

/-! Basic facts about word-l ist values. -/

theorem wB_pos : 0 < wB := by decide

theorem valWords_nil : valWords [] = 0 := rfl

theorem valWords_cons (w : Nat) (ws : List Nat) :
    valWords (w :: ws) = w + wB * valWords ws := rfl

theorem valWords_append (xs ys : List Nat) :
    valWords (xs ++ ys) = valWords xs + wB ^ xs.length * valWords ys := by
  induction xs with
  | nil => simp [valWords]
  | cons x xs ih => simp [valWords_cons, ih, pow_succ]; ring

theorem valWords_eq_zero (l : List Nat) : valWords l = 0 ↔ ∀ w ∈ l, w = 0 := by
  induction l with
  | nil => simp [valWords]
  | cons x xs ih =>
    simp only [valWords_cons, List.mem_cons]
    constructor
    · intro h
      have hx : x = 0 ∧ wB * valWords xs = 0 := by omega
      have hxs : valWords xs = 0 := by
        rcases Nat.mul_eq_zero.1 hx.2 with h1 | h1
        · exact absurd h1 (Nat.pos_iff_ne_zero.1 wB_pos)
        · exact h1
      intro w hw
      rcases hw with rfl | hw
      · exact hx.1
      · exact ih.1 hxs w hw
    · intro h
      have hx : x = 0 := h x (Or.inl rfl)
      have hxs : valWords xs = 0 := ih.2 fun w hw => h w (Or.inr hw)
      simp [hx, hxs]

theorem valWords_lt (l : List Nat) (h : ∀ w ∈ l, w < wB) :
    valWords l < wB ^ l.length := by
  induction l with
  | nil => simp [valWords]
  | cons x xs ih =>
    have hx : x < wB := h x (List.mem_cons_self x xs)
    have hxs : valWords xs < wB ^ xs.length := ih fun w hw => h w (List.mem_cons_of_mem x hw)
    calc x + wB * valWords xs < wB + wB * valWords xs := by omega
    _ = wB * (valWords xs + 1) := by ring
    _ ≤ wB * wB ^ xs.length := Nat.mul_le_mul_left wB hxs
    _ = wB ^ (x :: xs).length := by rw [List.length_cons, pow_succ]; ring

theorem valWords_take_eq_zero (s : Nat) (l : List Nat) :
    valWords (l.take s) = 0 ↔ ∀ n < s, l.getD n 0 = 0 := by
  induction s generalizing l with
  | zero => simp [valWords]
  | succ s ih =>
    cases l with
    | nil => simp [valWords, List.getD_nil]
    | cons x xs =>
      simp only [List.take_succ_cons, valWords_cons]
      constructor
      · intro h
        have hx : x = 0 ∧ wB * valWords (xs.take s) = 0 := by omega
        have hxs : valWords (xs.take s) = 0 := by
          rcases Nat.mul_eq_zero.1 hx.2 with h1 | h1
          · exact absurd h1 (Nat.pos_iff_ne_zero.1 wB_pos)
          · exact h1
        intro n hn
        cases n with
        | zero => simpa using hx.1
        | succ n => simpa using (ih xs).1 hxs n (by omega)
      · intro h
        have hx : x = 0 := by simpa using h 0 (Nat.succ_pos s)
        have hxs : valWords (xs.take s) = 0 :=
          (ih xs).2 fun n hn => by simpa using h (n+1) (by omega)
        simp [hx, hxs]

theorem valWords_take_succ (l : List Nat) (m : Nat) (h : m ≤ l.length) :
    valWords (l.take (m+1)) = valWords (l.take m) + l.getD m 0 * wB ^ m := by
  rcases Nat.lt_or_ge m l.length with hm | hm
  · rw [List.take_succ, valWords_append, List.length_take, Nat.min_eq_left h,
      List.getElem?_eq_getElem hm]
    simp only [Option.toList_some, valWords_cons, valWords_nil, Nat.mul_zero, Nat.add_zero]
    rw [List.getD_eq_getElem l 0 hm, Nat.mul_comm]
  · have hml : m = l.length := le_antisymm h hm
    rw [List.take_of_length_le (by omega), List.take_of_length_le (by omega),
      List.getD_eq_default _ _ (by omega)]
    simp

theorem valWords_inj (l1 l2 : List Nat) (hlen : l1.length = l2.length)
    (h1 : ∀ w ∈ l1, w < wB) (h2 : ∀ w ∈ l2, w < wB)
    (hval : valWords l1 = valWords l2) : l1 = l2 := by
  induction l1 generalizing l2 with
  | nil => cases l2 with
    | nil => rfl
    | cons y ys => simp at hlen
  | cons x xs ih =>
    cases l2 with
    | nil => simp at hlen
    | cons y ys =>
      have hx : x < wB := h1 x (List.mem_cons_self x xs)
      have hy : y < wB := h2 y (List.mem_cons_self y ys)
      simp only [valWords_cons] at hval
      have hxy : x = y ∧ valWords xs = valWords ys := by
        constructor
        · have := Nat.mod_eq_of_lt hx
          have := Nat.mod_eq_of_lt hy
          have hmx : (x + wB * valWords xs) % wB = x := by
            rw [Nat.add_mul_mod_self_left x wB (valWords xs)]; exact Nat.mod_eq_of_lt hx
          have hmy : (y + wB * valWords ys) % wB = y := by
            rw [Nat.add_mul_mod_self_left y wB (valWords ys)]; exact Nat.mod_eq_of_lt hy
          rw [← hmx, ← hmy, hval]
        · have hdx : (x + wB * valWords xs) / wB = valWords xs := by
            rw [Nat.add_mul_div_left x (valWords xs) wB_pos, Nat.div_eq_of_lt hx]; omega
          have hdy : (y + wB * valWords ys) / wB = valWords ys := by
            rw [Nat.add_mul_div_left y (valWords ys) wB_pos, Nat.div_eq_of_lt hy]; omega
          rw [← hdx, ← hdy, hval]
      have hxs : xs = ys :=
        ih ys (by simpa using hlen) (fun w hw => h1 w (List.mem_cons_of_mem x hw))
          (fun w hw => h2 w (List.mem_cons_of_mem y hw)) hxy.2
      rw [hxy.1, hxs]

/-! Small l ist index lemmas used throughout. -/

theorem getD_set_self (l : List Nat) (i v : Nat) (h : i < l.length) :
    (l.set i v).getD i 0 = v := by
  rw [List.getD_eq_getElem _ _ (by simpa using h)]
  simp [List.getElem_set]

theorem getD_set_ne (l : List Nat) (i j v : Nat) (h : i ≠ j) :
    (l.set i v).getD j 0 = l.getD j 0 := by
  rcases Nat.lt_or_ge j l.length with hj | hj
  · rw [List.getD_eq_getElem _ _ (by simpa using hj), List.getD_eq_getElem _ _ hj]
    simp [List.getElem_set, h]
  · rw [List.getD_eq_default _ _ (by simpa using hj), List.getD_eq_default _ _ hj]

theorem getD_take (l : List Nat) (n m : Nat) (h : m < n) :
    (l.take n).getD m 0 = l.getD m 0 := by
  rcases Nat.lt_or_ge m l.length with hm | hm
  · rw [List.getD_eq_getElem _ _ (by simp [List.length_take]; omega),
      List.getD_eq_getElem _ _ hm, List.getElem_take]
  · rw [List.getD_eq_default _ _ (by simp [List.length_take]; omega),
      List.getD_eq_default _ _ hm]

/-! Facts about well-formed bignums. -/

theorem getD_lt_of_WF {a : bm} (h : WF a) (j : Nat) : a.b.getD j 0 < wB := by
  obtain ⟨hm, hl, hs1, hs2, hw, hsn, hc, hz, hk⟩ := h
  rcases Nat.lt_or_ge j a.b.length with hj | hj
  · rw [List.getD_eq_getElem _ _ hj]
    exact hw _ (List.getElem_mem hj)
  · rw [List.getD_eq_default _ _ hj]
    exact wB_pos

theorem wordAt_eq_getD_of_WF {a : bm} (h : WF a) (j : Nat) : wordAt a j = a.b.getD j 0 := by
  obtain ⟨hm, hl, hs1, hs2, hw, hsn, hc, hz, hk⟩ := h
  unfold wordAt
  rcases Nat.lt_or_ge j a.maxs with hj | hj
  · simp [hj]
  · rw [if_neg (by omega), List.getD_eq_default _ _ (by omega)]

theorem getD_slack_of_WF {a : bm} (h : WF a) (j : Nat) (hj : a.size ≤ j) :
    a.b.getD j 0 = 0 := by
  obtain ⟨hm, hl, hs1, hs2, hw, hsn, hc, hz, hk⟩ := h
  rcases Nat.lt_or_ge j 32 with hj32 | hj32
  · exact hk j hj32 hj
  · exact List.getD_eq_default _ _ (by omega)

theorem magVal_lt_of_WF {a : bm} (h : WF a) : magVal a < wB ^ a.size := by
  obtain ⟨hm, hl, hs1, hs2, hw, hsn, hc, hz, hk⟩ := h
  have hlt : valWords (a.b.take a.size) < wB ^ (a.b.take a.size).length :=
    valWords_lt _ fun w hwm => hw w (List.take_subset _ _ hwm)
  have hle : (a.b.take a.size).length = a.size := by
    simp [List.length_take]; omega
  rw [magVal]
  calc valWords (a.b.take a.size) < wB ^ (a.b.take a.size).length := hlt
  _ = wB ^ a.size := by rw [hle]

theorem magVal_top_of_WF {a : bm} (h : WF a) (h2 : 2 ≤ a.size) :
    wB ^ (a.size - 1) ≤ magVal a := by
  have hcan : a.b.getD (a.size - 1) 0 ≠ 0 := by
    rcases h.2.2.2.2.2.2.1 with h1 | h1
    · omega
    · exact h1
  have hsz : a.size - 1 ≤ a.b.length := by
    have := h.2.1; have := h.2.2.2.1; omega
  have := valWords_take_succ a.b (a.size - 1) hsz
  have hss : a.size - 1 + 1 = a.size := by omega
  rw [hss] at this
  rw [magVal, this]
  have h1 : 1 ≤ a.b.getD (a.size - 1) 0 := Nat.one_le_iff_ne_zero.2 hcan
  calc wB ^ (a.size - 1) = 1 * wB ^ (a.size - 1) := by ring
  _ ≤ a.b.getD (a.size - 1) 0 * wB ^ (a.size - 1) :=
      Nat.mul_le_mul_right _ h1
  _ ≤ valWords (a.b.take (a.size - 1)) + a.b.getD (a.size - 1) 0 * wB ^ (a.size - 1) := by omega

theorem magVal_lt_of_size_lt {a b : bm} (ha : WF a) (hb : WF b)
    (hs : a.size < b.size) : magVal a < magVal b := by
  have h1 : magVal a < wB ^ a.size := magVal_lt_of_WF ha
  have h2 : wB ^ (b.size - 1) ≤ magVal b := magVal_top_of_WF hb (by
    have := ha.2.2.1; omega)
  have h3 : wB ^ a.size ≤ wB ^ (b.size - 1) :=
    Nat.pow_le_pow_right (by decide) (by omega)
  omega

theorem size_eq_of_magVal_eq {a b : bm} (ha : WF a) (hb : WF b)
    (hv : magVal a = magVal b) : a.size = b.size := by
  rcases Nat.lt_trichotomy a.size b.size with h | h | h
  · exact absurd hv (Nat.ne_of_lt (magVal_lt_of_size_lt ha hb h))
  · exact h
  · exact absurd hv.symm (Nat.ne_of_lt (magVal_lt_of_size_lt hb ha h))

theorem take_eq_of_magVal_eq {a b : bm} (ha : WF a) (hb : WF b)
    (hv : magVal a = magVal b) : a.b.take a.size = b.b.take b.size := by
  have hs := size_eq_of_magVal_eq ha hb hv
  refine valWords_inj _ _ ?_ ?_ ?_ hv
  · simp [List.length_take]
    have := ha.2.1; have := hb.2.1
    have := ha.2.2.2.1; have := hb.2.2.2.1
    omega
  · exact fun w hw => ha.2.2.2.2.1 w (List.take_subset _ _ hw)
  · exact fun w hw => hb.2.2.2.2.1 w (List.take_subset _ _ hw)

theorem cmpWords_eq_zero_of (a b : bm) (n : Nat)
    (h : ∀ j, j < n → a.b.getD j 0 = b.b.getD j 0) : cmpWords a b n = 0 := by
  induction n with
  | zero => rfl
  | succ n ih =>
    have hn := h n (by omega)
    unfold cmpWords
    rw [hn]
    simp only [lt_irrefl, if_false]
    exact ih fun j hj => h j (by omega)

theorem bm_cmp_nosign_eq_zero {a b : bm} (ha : WF a) (hb : WF b)
    (hv : magVal a = magVal b) : bm_cmp_nosign a b = 0 := by
  have hs := size_eq_of_magVal_eq ha hb hv
  have ht := take_eq_of_magVal_eq ha hb hv
  unfold bm_cmp_nosign
  rw [if_neg (by omega), if_neg (by omega)]
  refine cmpWords_eq_zero_of a b a.size fun j hj => ?_
  have h1 : (a.b.take a.size).getD j 0 = a.b.getD j 0 := getD_take _ _ _ hj
  have h2 : (b.b.take b.size).getD j 0 = b.b.getD j 0 := getD_take _ _ _ (by omega)
  rw [← h1, ← h2, ht]

theorem bm_is_zero_iff (a : bm) : bm_is_zero a = true ↔ magVal a = 0 := by
  rw [bm_is_zero, magVal, valWords_take_eq_zero]
  simp [List.all_eq_true, List.mem_range]

theorem valWords_take_one (l : List Nat) : valWords (l.take 1) = l.getD 0 0 := by
  cases l <;> simp [valWords]

theorem bm_set_size_one (r : bm) :
    bm_set_size r 1 = (BM_SUCCESS, { r with maxs := 32, size := 1 }) := by
  unfold bm_set_size
  rw [if_neg (by omega)]
  rfl

theorem bm_set_si_nonneg (r : bm) (l : Int) (hl : 0 ≤ l) :
    bm_set_si r l =
      (BM_SUCCESS,
        { sign := BM_POS, size := 1, maxs := 32, b := r.b.set 0 (l.toNat % wB) }) := by
  rw [bm_set_si, bm_set_size_one]
  simp [hl, BM_SUCCESS]

theorem bm_set_si_negat (r : bm) (l : Int) (hl : l < 0) :
    bm_set_si r l =
      (BM_SUCCESS,
        { sign := BM_NEG, size := 1, maxs := 32, b := r.b.set 0 ((-l).toNat % wB) }) := by
  rw [bm_set_si, bm_set_size_one]
  simp [BM_SUCCESS, show ¬(0 ≤ l) by omega]

/-- C10: when the numerator and the nonzero denominator have equal
magnitudes (as well-formed bignums), bm_div succeeds by the early equal
branch: the quotient is the product of the signs, that is +1 when they
agree and -1 when they differ, with magnitude 1, and the remainder is the
canonical zero with size 1, word 0 and POSITIVE sign. -/
theorem claim_C10_div_equal_magnitudes (fuel : Nat) (q r nn d : bm)
    (hn : WF nn) (hd : WF d) (hq : q.b.length = 32) (hr : r.b.length = 32)
    (hval : magVal nn = magVal d) (hnz : magVal d ≠ 0) :
    (bm_div fuel q r nn d).1 = BM_SUCCESS ∧
    intVal (bm_div fuel q r nn d).2.1 = nn.sign * d.sign ∧
    magVal (bm_div fuel q r nn d).2.1 = 1 ∧
    (bm_div fuel q r nn d).2.2.size = 1 ∧
    (bm_div fuel q r nn d).2.2.b.getD 0 0 = 0 ∧
    (bm_div fuel q r nn d).2.2.sign = BM_POS ∧
    magVal (bm_div fuel q r nn d).2.2 = 0 := by
  have hz : ¬bm_is_zero d = true := by rw [bm_is_zero_iff]; exact hnz
  have hcmp : bm_cmp_nosign nn d = 0 := bm_cmp_nosign_eq_zero hn hd hval
  have er : bm_set_si r 0 =
      (BM_SUCCESS, { sign := BM_POS, size := 1, maxs := 32, b := r.b.set 0 0 }) :=
    bm_set_si_nonneg r 0 (le_refl 0)
  have eq1 : bm_set_si q 1 =
      (BM_SUCCESS, { sign := BM_POS, size := 1, maxs := 32, b := q.b.set 0 1 }) :=
    bm_set_si_nonneg q 1 (by omega)
  have eq2 : bm_set_si q (-1) =
      (BM_SUCCESS, { sign := BM_NEG, size := 1, maxs := 32, b := q.b.set 0 1 }) :=
    bm_set_si_negat q (-1) (by omega)
  have hout : bm_div fuel q r nn d =
      (BM_SUCCESS,
        (bm_set_si q (nn.sign * d.sign)).2,
        { sign := BM_POS, size := 1, maxs := 32, b := r.b.set 0 0 }) := by
    rw [bm_div]
    rw [if_neg hz]
    simp only [hcmp, if_pos rfl, er]
    have hsi : (bm_set_si q (nn.sign * d.sign)).1 = BM_SUCCESS := by
      rcases le_or_lt 0 (nn.sign * d.sign) with hs | hs
      · rw [bm_set_si_nonneg q _ hs]
      · rw [bm_set_si_negat q _ hs]
    simp [BM_SUCCESS, hsi]
  have hrgetD : (r.b.set 0 0).getD 0 0 = 0 := getD_set_self r.b 0 0 (by omega)
  have hqgetD : (q.b.set 0 1).getD 0 0 = 1 := getD_set_self q.b 0 1 (by omega)
  have hsgn := hn.2.2.2.2.2.1
  have hsgd := hd.2.2.2.2.2.1
  refine ⟨by rw [hout], ?_, ?_, by rw [hout], by rw [hout]; exact hrgetD, by rw [hout],
    by rw [hout]; show valWords ((r.b.set 0 0).take 1) = 0;
       rw [valWords_take_one]; exact hrgetD⟩
  · rw [hout]
    rcases hsgn with hs1 | hs1 <;> rcases hsgd with hs2 | hs2 <;>
      rw [hs1, hs2] <;> norm_num <;> [rw [eq1]; rw [eq2]; rw [eq2]; rw [eq1]] <;>
      show _ * (valWords ((q.b.set 0 1).take 1) : Int) = _ <;>
      rw [valWords_take_one, hqgetD] <;> norm_num [BM_POS, BM_NEG]
  · rw [hout]
    rcases hsgn with hs1 | hs1 <;> rcases hsgd with hs2 | hs2 <;>
      rw [hs1, hs2] <;> norm_num <;> [rw [eq1]; rw [eq2]; rw [eq2]; rw [eq1]] <;>
      show valWords ((q.b.set 0 1).take 1) = 1 <;>
      rw [valWords_take_one, hqgetD]

/-- Witness for C10 at numerator -7 and denominator 7. -/
theorem claim_C10_div_equal_magnitudes_witness :
    (bm_div 5 bm_fresh bm_fresh (mkbm (-1) [7]) (mkbm 1 [7])).1 = BM_SUCCESS ∧
    intVal (bm_div 5 bm_fresh bm_fresh (mkbm (-1) [7]) (mkbm 1 [7])).2.1 =
      (mkbm (-1) [7]).sign * (mkbm 1 [7]).sign ∧
    magVal (bm_div 5 bm_fresh bm_fresh (mkbm (-1) [7]) (mkbm 1 [7])).2.1 = 1 ∧
    (bm_div 5 bm_fresh bm_fresh (mkbm (-1) [7]) (mkbm 1 [7])).2.2.size = 1 ∧
    (bm_div 5 bm_fresh bm_fresh (mkbm (-1) [7]) (mkbm 1 [7])).2.2.b.getD 0 0 = 0 ∧
    (bm_div 5 bm_fresh bm_fresh (mkbm (-1) [7]) (mkbm 1 [7])).2.2.sign = BM_POS ∧
    magVal (bm_div 5 bm_fresh bm_fresh (mkbm (-1) [7]) (mkbm 1 [7])).2.2 = 0 :=
  claim_C10_div_equal_magnitudes 5 bm_fresh bm_fresh (mkbm (-1) [7]) (mkbm 1 [7])
    (by decide) (by decide) (by decide) (by decide) (by decide) (by decide)

/-! Facts about the add and subtract word loops. -/

theorem addChain_length (a b : bm) : ∀ cnt i c, (addChain a b i cnt c).1.length = cnt := by
  intro cnt
  induction cnt with
  | zero => intro i c; rfl
  | succ n ih => intro i c; simp [addChain, ih]

theorem subChain_length (a b : bm) : ∀ cnt i c, (subChain a b i cnt c).1.length = cnt := by
  intro cnt
  induction cnt with
  | zero => intro i c; rfl
  | succ n ih => intro i c; simp [subChain, ih]

theorem addChain_val (a b : bm) : ∀ cnt i c,
    valWords (addChain a b i cnt c).1 + wB ^ cnt * (addChain a b i cnt c).2 =
      wordVal a i cnt + wordVal b i cnt + c := by
  intro cnt
  induction cnt with
  | zero => intro i c; simp [addChain, wordVal, valWords]
  | succ n ih =>
    intro i c
    have h := ih (i+1) ((wordAt a i + wordAt b i + c) / wB)
    simp only [addChain, valWords_cons, wordVal]
    have hmd : (wordAt a i + wordAt b i + c) % wB +
        wB * ((wordAt a i + wordAt b i + c) / wB) = wordAt a i + wordAt b i + c :=
      Nat.mod_add_div _ _
    calc (wordAt a i + wordAt b i + c) % wB +
          wB * valWords (addChain a b (i+1) n ((wordAt a i + wordAt b i + c) / wB)).1 +
          wB ^ (n+1) * (addChain a b (i+1) n ((wordAt a i + wordAt b i + c) / wB)).2
        = (wordAt a i + wordAt b i + c) % wB +
          wB * (valWords (addChain a b (i+1) n ((wordAt a i + wordAt b i + c) / wB)).1 +
            wB ^ n * (addChain a b (i+1) n ((wordAt a i + wordAt b i + c) / wB)).2) := by
          ring
      _ = (wordAt a i + wordAt b i + c) % wB +
          wB * (wordVal a (i+1) n + wordVal b (i+1) n +
            (wordAt a i + wordAt b i + c) / wB) := by rw [h]
      _ = ((wordAt a i + wordAt b i + c) % wB +
            wB * ((wordAt a i + wordAt b i + c) / wB)) +
          wB * wordVal a (i+1) n + wB * wordVal b (i+1) n := by ring
      _ = wordAt a i + wB * wordVal a (i+1) n + (wordAt b i + wB * wordVal b (i+1) n) + c := by
          rw [hmd]; ring

theorem addChain_carry_le (a b : bm) (ha : ∀ j, wordAt a j < wB) (hb : ∀ j, wordAt b j < wB) :
    ∀ cnt i c, c ≤ 1 → (addChain a b i cnt c).2 ≤ 1 := by
  intro cnt
  induction cnt with
  | zero => intro i c hc; exact hc
  | succ n ih =>
    intro i c hc
    have hA := ha i
    have hB := hb i
    have hdiv : (wordAt a i + wordAt b i + c) / wB ≤ 1 := by
      have hwb : wB = 4294967296 := rfl
      rw [hwb] at hA hB ⊢
      omega
    simpa [addChain] using ih (i+1) _ hdiv

theorem subChain_all_zero (a b : bm) (ha : ∀ j, wordAt a j < wB) (hb : ∀ j, wordAt b j < wB) :
    ∀ cnt i, (∀ w ∈ (subChain a b i cnt 0).1, w = 0) →
      ∀ j, j < cnt → wordAt a (i+j) = wordAt b (i+j) := by
  intro cnt
  induction cnt with
  | zero => intro i h j hj; omega
  | succ n ih =>
    intro i h j hj
    have hA := ha i
    have hB := hb i
    have hwb : wB = 4294967296 := rfl
    have hqb : qB = 18446744073709551616 := rfl
    have hhead : ((wordAt a i + 0 + (qB - wordAt b i % qB)) % qB) % wB = 0 := by
      refine h _ ?_
      simp [subChain]
    have heq : wordAt a i = wordAt b i ∧
        (wordAt a i + 0 + (qB - wordAt b i % qB)) % qB / wB = 0 := by
      rw [hwb] at hA hB hhead ⊢
      rw [hqb] at hhead ⊢
      omega
    cases j with
    | zero => simpa using heq.1
    | succ j =>
      have hrest : ∀ w ∈ (subChain a b (i+1) n 0).1, w = 0 := by
        intro w hw
        refine h w ?_
        have hc0 := heq.2
        simp only [subChain]
        rw [hc0]
        exact List.mem_cons_of_mem _ hw
      have := ih (i+1) hrest j (by omega)
      have hidx : i + 1 + j = i + (j + 1) := by omega
      rwa [hidx] at this

theorem wordVal_eq_getVal {a : bm} (h : WF a) : ∀ cnt i, wordVal a i cnt = getVal a.b i cnt := by
  intro cnt
  induction cnt with
  | zero => intro i; rfl
  | succ n ih => intro i; simp [wordVal, getVal, wordAt_eq_getD_of_WF h, ih]

theorem getVal_take (l : List Nat) : ∀ cnt i, getVal l i cnt = valWords ((l.drop i).take cnt) := by
  intro cnt
  induction cnt with
  | zero => intro i; simp [getVal, valWords]
  | succ n ih =>
    intro i
    rcases Nat.lt_or_ge i l.length with hi | hi
    · rw [List.drop_eq_getElem_cons hi]
      simp only [List.take_succ_cons, valWords_cons, getVal]
      rw [List.getD_eq_getElem _ _ hi, ih (i+1)]
    · have hd : l.drop i = [] := List.drop_eq_nil_of_le hi
      have hd1 : l.drop (i+1) = [] := List.drop_eq_nil_of_le (by omega)
      rw [hd]
      simp only [List.take_nil, valWords_nil, getVal]
      rw [List.getD_eq_default _ _ hi, ih (i+1), hd1]
      simp [valWords]

theorem valWords_take_succ_any (l : List Nat) (m : Nat) :
    valWords (l.take (m+1)) = valWords (l.take m) + l.getD m 0 * wB ^ m := by
  rcases le_or_lt m l.length with hm | hm
  · exact valWords_take_succ l m hm
  · rw [List.take_of_length_le (by omega), List.take_of_length_le (by omega),
      List.getD_eq_default _ _ (by omega)]
    simp

theorem valWords_take_stable (l : List Nat) (s : Nat)
    (hz : ∀ j, s ≤ j → l.getD j 0 = 0) :
    ∀ m, s ≤ m → valWords (l.take m) = valWords (l.take s) := by
  intro m
  induction m with
  | zero => intro hm; have : s = 0 := by omega
            rw [this]
  | succ n ih =>
    intro hm
    rcases Nat.lt_or_ge s (n+1) with hs | hs
    · rw [valWords_take_succ_any, hz n (by omega), ih (by omega)]
      simp
    · have : s = n + 1 := by omega
      rw [this]

theorem getVal_eq_magVal {a : bm} (h : WF a) (m : Nat) (hm : a.size ≤ m) :
    getVal a.b 0 m = magVal a := by
  rw [getVal_take, List.drop_zero, magVal]
  exact valWords_take_stable a.b a.size (getD_slack_of_WF h) m hm

theorem wordVal_eq_magVal {a : bm} (h : WF a) (m : Nat) (hm : a.size ≤ m) :
    wordVal a 0 m = magVal a := by
  rw [wordVal_eq_getVal h, getVal_eq_magVal h m hm]

/-! Shape of the nosign add and subtract results. -/

theorem bm_sub_nosign_shape (r a b : bm) (h : (bm_sub_nosign r a b).1 = BM_SUCCESS) :
    (bm_sub_nosign r a b).2.sign = r.sign ∧
    (bm_sub_nosign r a b).2.b = writeWords r.b (subChain a b 0 (max a.size b.size) 0).1 ∧
    (bm_sub_nosign r a b).2.size =
      trimSize1 (writeWords r.b (subChain a b 0 (max a.size b.size) 0).1)
        (max a.size b.size) := by
  unfold bm_sub_nosign at h ⊢
  by_cases hge : max a.size b.size ≥ r.maxs
  · rcases Nat.eq_zero_or_pos r.maxs with h0 | h0
    · simp [hge, h0, bm_resize, BM_SUCCESS]
    · have hmx : ¬r.maxs = 0 := by omega
      simp [hge, bm_resize, hmx, BM_SUCCESS, BM_ERROR_NUMBER_TOO_BIG] at h
  · simp [hge, BM_SUCCESS]

theorem bm_add_nosign_shape (r a b : bm) (h : (bm_add_nosign r a b).1 = BM_SUCCESS) :
    (bm_add_nosign r a b).2.sign = r.sign ∧
    (((addChain a b 0 (max a.size b.size) 0).2 ≠ 0 ∧
      (bm_add_nosign r a b).2.b =
        writeWords r.b ((addChain a b 0 (max a.size b.size) 0).1 ++
          [(addChain a b 0 (max a.size b.size) 0).2 % wB]) ∧
      (bm_add_nosign r a b).2.size = max a.size b.size + 1) ∨
     ((addChain a b 0 (max a.size b.size) 0).2 = 0 ∧
      (bm_add_nosign r a b).2.b = writeWords r.b (addChain a b 0 (max a.size b.size) 0).1 ∧
      (bm_add_nosign r a b).2.size = max a.size b.size)) := by
  unfold bm_add_nosign at h ⊢
  by_cases hge : max a.size b.size ≥ r.maxs
  · rcases Nat.eq_zero_or_pos r.maxs with h0 | h0
    · by_cases hc : (addChain a b 0 (max a.size b.size) 0).2 = 0
      · simp [hge, h0, bm_resize, BM_SUCCESS, hc]
      · simp [hge, h0, bm_resize, BM_SUCCESS, hc]
    · have hmx : ¬r.maxs = 0 := by omega
      simp [hge, bm_resize, hmx, BM_SUCCESS, BM_ERROR_NUMBER_TOO_BIG] at h
  · by_cases hc : (addChain a b 0 (max a.size b.size) 0).2 = 0
    · simp [hge, BM_SUCCESS, hc]
    · simp [hge, BM_SUCCESS, hc]

/-! Trim and write helpers. -/

theorem trimSize1_zero_between (l : List Nat) :
    ∀ n j, trimSize1 l n ≤ j → j < n → l.getD j 0 = 0 := by
  intro n
  induction n with
  | zero => intro j h1 h2; omega
  | succ n ih =>
    intro j h1 h2
    cases n with
    | zero => unfold trimSize1 at h1; omega
    | succ m =>
      unfold trimSize1 at h1
      by_cases hz : l.getD (m+1) 0 = 0
      · rw [if_pos hz] at h1
        rcases Nat.lt_or_ge j (m+1+1) with hj | hj
        · rcases Nat.lt_or_ge j (m+1) with hj2 | hj2
          · exact ih j h1 hj2
          · have : j = m + 1 := by omega
            rw [this]; exact hz
        · omega
      · rw [if_neg hz] at h1
        omega

theorem take_writeWords (l ws : List Nat) (h : ws.length ≤ l.length) :
    (writeWords l ws).take ws.length = ws := by
  unfold writeWords
  rw [List.take_take, Nat.min_eq_left h, List.take_append_eq_append_take,
    Nat.sub_self, List.take_zero, List.append_nil, List.take_of_length_le (le_refl _)]

theorem take_writeWords_of_len (l ws : List Nat) (n : Nat) (hn : ws.length = n)
    (h : ws.length ≤ l.length) : (writeWords l ws).take n = ws := by
  rw [← hn]
  exact take_writeWords l ws h

theorem all_zero_of_getD (l : List Nat) (h : ∀ n, n < l.length → l.getD n 0 = 0) :
    ∀ w ∈ l, w = 0 := by
  intro w hw
  rcases List.mem_iff_getElem.1 hw with ⟨k, hk, rfl⟩
  rw [← List.getD_eq_getElem l 0 hk]
  exact h k hk

theorem cmpWords_ne (a b : bm) :
    ∀ n, cmpWords a b n ≠ 0 → ∃ j, j < n ∧ a.b.getD j 0 ≠ b.b.getD j 0 := by
  intro n
  induction n with
  | zero => intro h; exact absurd rfl h
  | succ n ih =>
    intro h
    unfold cmpWords at h
    by_cases h1 : a.b.getD n 0 > b.b.getD n 0
    · exact ⟨n, by omega, by omega⟩
    · rw [if_neg h1] at h
      by_cases h2 : a.b.getD n 0 < b.b.getD n 0
      · exact ⟨n, by omega, by omega⟩
      · rw [if_neg h2] at h
        rcases ih h with ⟨j, hj, hne⟩
        exact ⟨j, by omega, hne⟩

theorem exists_diff_of_cmp_ne {a b : bm} (ha : WF a) (hb : WF b)
    (h : bm_cmp_nosign a b ≠ 0) :
    ∃ j, j < max a.size b.size ∧ wordAt a j ≠ wordAt b j := by
  unfold bm_cmp_nosign at h
  by_cases hlt : a.size < b.size
  · refine ⟨b.size - 1, by omega, ?_⟩
    rw [wordAt_eq_getD_of_WF ha, wordAt_eq_getD_of_WF hb]
    have hbs : 2 ≤ b.size := by have := ha.2.2.1; omega
    have hcan : b.b.getD (b.size - 1) 0 ≠ 0 := by
      rcases hb.2.2.2.2.2.2.1 with h1 | h1
      · omega
      · exact h1
    have hsl : a.b.getD (b.size - 1) 0 = 0 := getD_slack_of_WF ha _ (by omega)
    rw [hsl]
    exact fun he => hcan he.symm
  · rw [if_neg hlt] at h
    by_cases hgt : a.size > b.size
    · refine ⟨a.size - 1, by omega, ?_⟩
      rw [wordAt_eq_getD_of_WF ha, wordAt_eq_getD_of_WF hb]
      have has : 2 ≤ a.size := by have := hb.2.2.1; omega
      have hcan : a.b.getD (a.size - 1) 0 ≠ 0 := by
        rcases ha.2.2.2.2.2.2.1 with h1 | h1
        · omega
        · exact h1
      have hsl : b.b.getD (a.size - 1) 0 = 0 := getD_slack_of_WF hb _ (by omega)
      rw [hsl]
      exact hcan
    · rw [if_neg hgt] at h
      rcases cmpWords_ne a b a.size h with ⟨j, hj, hne⟩
      refine ⟨j, by omega, ?_⟩
      rw [wordAt_eq_getD_of_WF ha, wordAt_eq_getD_of_WF hb]
      exact hne

theorem wordAt_lt_of_WF {a : bm} (h : WF a) (j : Nat) : wordAt a j < wB := by
  rw [wordAt_eq_getD_of_WF h]
  exact getD_lt_of_WF h j

theorem magVal_ne_zero_of_neg {a : bm} (h : WF a) (hs : a.sign = BM_NEG) : magVal a ≠ 0 := by
  intro h0
  have := h.2.2.2.2.2.2.2.1 h0
  rw [hs] at this
  norm_num [BM_NEG] at this

/-- If a successful bm_sub_nosign produced magnitude zero, then every pair
of guarded word reads of the two operands agreed. -/
theorem sub_result_zero_words_eq (r x y : bm) (hx : WF x) (hy : WF y)
    (hrl : r.b.length = 32)
    (hok : (bm_sub_nosign r x y).1 = BM_SUCCESS)
    (hmag : magVal (bm_sub_nosign r x y).2 = 0) :
    ∀ j, j < max x.size y.size → wordAt x j = wordAt y j := by
  obtain ⟨hsgn, hbl, hsz⟩ := bm_sub_nosign_shape r x y hok
  have hm32 : max x.size y.size ≤ 32 := by
    have := hx.2.2.2.1; have := hy.2.2.2.1; omega
  have hlen : (subChain x y 0 (max x.size y.size) 0).1.length = max x.size y.size :=
    subChain_length x y _ 0 0
  have htake : ((bm_sub_nosign r x y).2.b).take (max x.size y.size) =
      (subChain x y 0 (max x.size y.size) 0).1 := by
    rw [hbl]
    exact take_writeWords_of_len r.b (subChain x y 0 (max x.size y.size) 0).1
      (max x.size y.size) hlen (by rw [hlen, hrl]; exact hm32)
  have hzero : ∀ n, n < max x.size y.size →
      ((bm_sub_nosign r x y).2.b).getD n 0 = 0 := by
    intro n hn
    rcases Nat.lt_or_ge n ((bm_sub_nosign r x y).2.size) with hns | hns
    · rw [magVal, valWords_take_eq_zero] at hmag
      exact hmag n hns
    · rw [hsz] at hns
      rw [hbl]
      exact trimSize1_zero_between _ _ n hns hn
  have hallz : ∀ w ∈ (subChain x y 0 (max x.size y.size) 0).1, w = 0 := by
    refine all_zero_of_getD _ fun n hn => ?_
    rw [hlen] at hn
    have h1 : ((bm_sub_nosign r x y).2.b.take (max x.size y.size)).getD n 0 =
        (bm_sub_nosign r x y).2.b.getD n 0 := getD_take _ _ _ hn
    rw [← htake]
    rw [h1]
    exact hzero n hn
  intro j hj
  have hres := subChain_all_zero x y (wordAt_lt_of_WF hx) (wordAt_lt_of_WF hy) _ 0 hallz j hj
  simpa using hres

/-- bm_add never returns a negative zero, provided the operands are
well-formed, the output struct has the full array, and the magnitude sum
fits the static capacity. -/
theorem bm_add_no_negzero (r a b : bm) (ha : WF a) (hb : WF b) (hrl : r.b.length = 32)
    (hfit : magVal a + magVal b < wB ^ 32)
    (hok : (bm_add r a b).1 = BM_SUCCESS)
    (hmag : magVal (bm_add r a b).2 = 0) :
    (bm_add r a b).2.sign = BM_POS := by
  have hsa := ha.2.2.2.2.2.1
  have hsb := hb.2.2.2.2.2.1
  have hm32 : max a.size b.size ≤ 32 := by
    have := ha.2.2.2.1; have := hb.2.2.2.1; omega
  by_cases hne : a.sign ≠ b.sign
  · by_cases hap : a.sign = BM_POS
    · have e : bm_add r a b =
          bm_sub_nosign { r with sign := if bm_cmp_nosign a b ≥ 0 then BM_POS else BM_NEG } a b := by
        unfold bm_add
        rw [if_pos hne, if_pos hap]
      rcases le_or_lt 0 (bm_cmp_nosign a b) with hcmp | hcmp
      · rw [e] at hok ⊢
        rw [(bm_sub_nosign_shape _ a b hok).1]
        simp [hcmp]
      · exfalso
        rw [e] at hok hmag
        have hwe := sub_result_zero_words_eq _ a b ha hb (by simpa using hrl) hok hmag
        have hcne : bm_cmp_nosign a b ≠ 0 := by omega
        rcases exists_diff_of_cmp_ne ha hb hcne with ⟨j, hj, hne2⟩
        exact hne2 (hwe j hj)
    · have e : bm_add r a b =
          bm_sub_nosign { r with sign := if bm_cmp_nosign a b > 0 then BM_NEG else BM_POS } b a := by
        unfold bm_add
        rw [if_pos hne, if_neg hap]
      rcases le_or_lt (bm_cmp_nosign a b) 0 with hcmp | hcmp
      · rw [e] at hok ⊢
        rw [(bm_sub_nosign_shape _ b a hok).1]
        simp [show ¬bm_cmp_nosign a b > 0 by omega]
      · exfalso
        rw [e] at hok hmag
        have hwe := sub_result_zero_words_eq _ b a hb ha (by simpa using hrl) hok hmag
        have hcne : bm_cmp_nosign a b ≠ 0 := by omega
        rcases exists_diff_of_cmp_ne ha hb hcne with ⟨j, hj, hne2⟩
        have hj2 : j < max b.size a.size := by rw [Nat.max_comm]; exact hj
        exact hne2 (hwe j hj2).symm
  · have hse : a.sign = b.sign := by
      by_contra hc; exact hne hc
    have e : bm_add r a b = bm_add_nosign { r with sign := a.sign } a b := by
      unfold bm_add
      rw [if_neg hne]
    rcases hsa with hap | han
    · rw [e] at hok ⊢
      rw [(bm_add_nosign_shape _ a b hok).1]
      simpa using hap
    · exfalso
      have hbn : b.sign = BM_NEG := by rw [← hse]; exact han
      have hma : magVal a ≠ 0 := magVal_ne_zero_of_neg ha (by simpa [BM_NEG] using han)
      have hmb : magVal b ≠ 0 := magVal_ne_zero_of_neg hb (by simpa [BM_NEG] using hbn)
      rw [e] at hok hmag
      obtain ⟨hsgn, hcase⟩ := bm_add_nosign_shape _ a b hok
      have hval := addChain_val a b (max a.size b.size) 0 0
      have hva : wordVal a 0 (max a.size b.size) = magVal a :=
        wordVal_eq_magVal ha _ (Nat.le_max_left _ _)
      have hvb : wordVal b 0 (max a.size b.size) = magVal b :=
        wordVal_eq_magVal hb _ (Nat.le_max_right _ _)
      rw [hva, hvb, Nat.add_zero] at hval
      have hclen : (addChain a b 0 (max a.size b.size) 0).1.length = max a.size b.size :=
        addChain_length a b _ 0 0
      rcases hcase with ⟨hcne, hbl, hsz⟩ | ⟨hc0, hbl, hsz⟩
      · have hcle : (addChain a b 0 (max a.size b.size) 0).2 ≤ 1 :=
          addChain_carry_le a b (wordAt_lt_of_WF ha) (wordAt_lt_of_WF hb) _ 0 0 (by omega)
        have hc1 : (addChain a b 0 (max a.size b.size) 0).2 = 1 := by omega
        have hmlt : max a.size b.size < 32 := by
          have hle : wB ^ (max a.size b.size) ≤ magVal a + magVal b := by
            rw [← hval, hc1]; omega
          have hlt : wB ^ (max a.size b.size) < wB ^ 32 := lt_of_le_of_lt hle hfit
          exact (Nat.pow_lt_pow_iff_right (by norm_num [wB])).1 hlt
        have htake : ((bm_add_nosign { r with sign := a.sign } a b).2.b).take
            (max a.size b.size + 1) =
            (addChain a b 0 (max a.size b.size) 0).1 ++
              [(addChain a b 0 (max a.size b.size) 0).2 % wB] := by
          rw [hbl]
          have hlw : ((addChain a b 0 (max a.size b.size) 0).1 ++
              [(addChain a b 0 (max a.size b.size) 0).2 % wB]).length =
              max a.size b.size + 1 := by simp [hclen]
          exact take_writeWords_of_len r.b _ _ hlw (by rw [hlw, hrl]; omega)
        rw [magVal, hsz, htake, valWords_append, hclen, hc1] at hmag
        have h1m : (1 : Nat) % wB = 1 := rfl
        rw [h1m] at hmag
        simp only [valWords_cons, valWords_nil, Nat.mul_zero, Nat.add_zero, Nat.mul_one] at hmag
        have hp : 0 < wB ^ (max a.size b.size) := Nat.pow_pos (by norm_num [wB])
        omega
      · have htake : ((bm_add_nosign { r with sign := a.sign } a b).2.b).take
            (max a.size b.size) = (addChain a b 0 (max a.size b.size) 0).1 := by
          rw [hbl]
          exact take_writeWords_of_len r.b (addChain a b 0 (max a.size b.size) 0).1
            (max a.size b.size) hclen (by rw [hclen, hrl]; exact hm32)
        rw [magVal, hsz, htake] at hmag
        rw [hc0] at hval
        simp at hval
        omega



/-! Facts about the multiplication loops. -/

theorem valWords_set (l : List Nat) : ∀ p v, p < l.length →
    valWords (l.set p v) + l.getD p 0 * wB ^ p = valWords l + v * wB ^ p := by
  induction l with
  | nil => intro p v hp; simp at hp
  | cons x xs ih =>
    intro p v hp
    cases p with
    | zero => simp [valWords_cons]; ring
    | succ p =>
      have hps : p < xs.length := by simpa using hp
      have := ih p v hps
      simp only [List.set_cons_succ, valWords_cons, List.getD_cons_succ, pow_succ]
      calc x + wB * valWords (xs.set p v) + xs.getD p 0 * (wB ^ p * wB)
          = x + wB * (valWords (xs.set p v) + xs.getD p 0 * wB ^ p) := by ring
        _ = x + wB * (valWords xs + v * wB ^ p) := by rw [this]
        _ = x + wB * valWords xs + v * (wB ^ p * wB) := by ring

theorem mulInner_length (a1 : bm) (B o : Nat) : ∀ cnt i c rr,
    (mulInner a1 B o i cnt c rr).length = rr.length := by
  intro cnt
  induction cnt with
  | zero =>
    intro i c rr
    simp only [mulInner]
    by_cases hc : c ≠ 0
    · simp [hc]
    · simp [hc]
  | succ n ih =>
    intro i c rr
    simp only [mulInner]
    rw [ih]
    simp

theorem mulInner_zero_above (a1 : bm) (B o : Nat) : ∀ cnt i c rr j,
    o + i + cnt < j → (mulInner a1 B o i cnt c rr).getD j 0 = rr.getD j 0 := by
  intro cnt
  induction cnt with
  | zero =>
    intro i c rr j hj
    simp only [mulInner]
    by_cases hc : c ≠ 0
    · rw [if_pos hc]
      exact getD_set_ne _ _ _ _ (by omega)
    · simp [hc]
  | succ n ih =>
    intro i c rr j hj
    simp only [mulInner]
    rw [ih _ _ _ j (by omega), getD_set_ne _ _ _ _ (by omega)]

theorem mulInner_entries (a1 : bm) (B o : Nat) : ∀ cnt i c rr,
    (∀ j, rr.getD j 0 < wB) → ∀ j, (mulInner a1 B o i cnt c rr).getD j 0 < wB := by
  intro cnt
  induction cnt with
  | zero =>
    intro i c rr hrr j
    simp only [mulInner]
    by_cases hc : c ≠ 0
    · rw [if_pos hc]
      by_cases hj : o + i = j
      · rcases Nat.lt_or_ge j rr.length with h | h
        · rw [hj, getD_set_self _ _ _ (hj ▸ h)]
          exact Nat.mod_lt _ wB_pos
        · rw [List.getD_eq_default _ _ (by simpa using h)]
          exact wB_pos
      · rw [getD_set_ne _ _ _ _ hj]
        exact hrr j
    · simp only [hc, if_false]
      exact hrr j
  | succ n ih =>
    intro i c rr hrr j
    simp only [mulInner]
    refine ih _ _ _ ?_ j
    intro k
    by_cases hk : o + i = k
    · rcases Nat.lt_or_ge k rr.length with h | h
      · rw [hk, getD_set_self _ _ _ (hk ▸ h)]
        exact Nat.mod_lt _ wB_pos
      · rw [List.getD_eq_default _ _ (by simpa using h)]
        exact wB_pos
    · rw [getD_set_ne _ _ _ _ hk]
      exact hrr k

theorem mulInner_val (a1 : bm) (B o : Nat) (hB : B < wB)
    (hA : ∀ j, a1.b.getD j 0 < wB) : ∀ cnt i c rr,
    (∀ j, rr.getD j 0 < wB) →
    c < wB →
    o + i + cnt < rr.length →
    rr.getD (o + i + cnt) 0 = 0 →
    valWords (mulInner a1 B o i cnt c rr) =
      valWords rr + (c + B * getVal a1.b i cnt) * wB ^ (o + i) := by
  intro cnt
  induction cnt with
  | zero =>
    intro i c rr hrr hc hlt hz
    simp only [mulInner]
    simp only [Nat.add_zero] at hlt hz
    by_cases hcz : c ≠ 0
    · rw [if_pos hcz]
      have hvs := valWords_set rr (o + i) (c % wB) hlt
      rw [hz, Nat.zero_mul, Nat.add_zero] at hvs
      rw [hvs, Nat.mod_eq_of_lt hc]
      simp [getVal]
    · push_neg at hcz
      simp [hcz, getVal]
  | succ n ih =>
    intro i c rr hrr hc hlt hz
    simp only [mulInner]
    have hA2 : a1.b.getD i 0 < 4294967296 := hA i
    have hB2 : B < 4294967296 := hB
    have hR2 : rr.getD (o + i) 0 < 4294967296 := hrr (o + i)
    have hc2 : c < 4294967296 := hc
    have h1 : a1.b.getD i 0 * B ≤ 4294967295 * 4294967295 :=
      Nat.mul_le_mul (by omega) (by omega)
    have hcar : (a1.b.getD i 0 * B + rr.getD (o + i) 0 + c) / wB < wB := by
      show (a1.b.getD i 0 * B + rr.getD (o + i) 0 + c) / 4294967296 < 4294967296
      omega
    have hrr2 : ∀ j, (rr.set (o + i) ((a1.b.getD i 0 * B + rr.getD (o + i) 0 + c) % wB)).getD
        j 0 < wB := by
      intro k
      by_cases hk : o + i = k
      · rcases Nat.lt_or_ge k rr.length with h | h
        · rw [hk, getD_set_self _ _ _ (hk ▸ h)]
          exact Nat.mod_lt _ wB_pos
        · rw [List.getD_eq_default _ _ (by simpa using h)]
          exact wB_pos
      · rw [getD_set_ne _ _ _ _ hk]
        exact hrr k
    have hlt2 : o + (i + 1) + n < (rr.set (o + i)
        ((a1.b.getD i 0 * B + rr.getD (o + i) 0 + c) % wB)).length := by
      simpa using (by omega : o + (i+1) + n < rr.length)
    have hz2 : (rr.set (o + i) ((a1.b.getD i 0 * B + rr.getD (o + i) 0 + c) % wB)).getD
        (o + (i + 1) + n) 0 = 0 := by
      rw [getD_set_ne _ _ _ _ (by omega)]
      have he : o + (i + 1) + n = o + i + (n + 1) := by omega
      rw [he]
      exact hz
    have hih := ih (i+1) ((a1.b.getD i 0 * B + rr.getD (o + i) 0 + c) / wB)
      (rr.set (o + i) ((a1.b.getD i 0 * B + rr.getD (o + i) 0 + c) % wB))
      hrr2 hcar hlt2 hz2
    rw [hih]
    have hset := valWords_set rr (o + i) ((a1.b.getD i 0 * B + rr.getD (o + i) 0 + c) % wB)
      (by omega)
    have hmd := Nat.mod_add_div (a1.b.getD i 0 * B + rr.getD (o + i) 0 + c) wB
    simp only [getVal]
    have hpow : wB ^ (o + (i + 1)) = wB ^ (o + i) * wB := by
      rw [show o + (i + 1) = o + i + 1 by omega, pow_succ]
    rw [hpow]
    set L := valWords rr with hL
    set Sv := valWords (rr.set (o + i)
      ((a1.b.getD i 0 * B + rr.getD (o + i) 0 + c) % wB)) with hSv
    set A := a1.b.getD i 0 with hA3
    set R := rr.getD (o + i) 0 with hR3
    set G := getVal a1.b (i + 1) n with hG
    set P := wB ^ (o + i) with hP
    have hexp : Sv + ((A * B + R + c) / wB + B * G) * (P * wB) + R * P =
        L + ((A * B + R + c) % wB) * P + ((A * B + R + c) / wB + B * G) * (P * wB) := by
      rw [← hset]
      ring
    have hsum : ((A * B + R + c) % wB) * P + ((A * B + R + c) / wB + B * G) * (P * wB) =
        (A * B + R + c) * P + B * G * (P * wB) := by
      calc ((A * B + R + c) % wB) * P + ((A * B + R + c) / wB + B * G) * (P * wB)
          = ((A * B + R + c) % wB + wB * ((A * B + R + c) / wB)) * P + B * G * (P * wB) := by
            ring
        _ = (A * B + R + c) * P + B * G * (P * wB) := by rw [hmd]
    have hfin : L + (A * B + R + c) * P + B * G * (P * wB) =
        L + (c + B * (A + wB * G)) * P + R * P := by ring
    omega

theorem trimSize_le (l : List Nat) : ∀ n, trimSize l n ≤ n := by
  intro n
  induction n with
  | zero => simp [trimSize]
  | succ n ih =>
    unfold trimSize
    by_cases h : l.getD n 0 = 0
    · rw [if_pos h]; omega
    · rw [if_neg h]

theorem trimSize_zero_between (l : List Nat) :
    ∀ n j, trimSize l n ≤ j → j < n → l.getD j 0 = 0 := by
  intro n
  induction n with
  | zero => intro j h1 h2; omega
  | succ n ih =>
    intro j h1 h2
    unfold trimSize at h1
    by_cases h : l.getD n 0 = 0
    · rw [if_pos h] at h1
      rcases Nat.lt_or_ge j n with hj | hj
      · exact ih j h1 hj
      · have : j = n := by omega
        rw [this]; exact h
    · rw [if_neg h] at h1
      omega

theorem valWords_take_all (l : List Nat) (t : Nat)
    (hz : ∀ j, t ≤ j → l.getD j 0 = 0) : valWords (l.take t) = valWords l := by
  rcases le_or_lt t l.length with ht | ht
  · have h1 := valWords_take_stable l t hz l.length ht
    rw [List.take_of_length_le (le_refl _)] at h1
    exact h1.symm ▸ rfl
  · rw [List.take_of_length_le (by omega)]

theorem getD_replicate_zero (n j : Nat) : (List.replicate n (0 : Nat)).getD j 0 = 0 := by
  rcases Nat.lt_or_ge j n with h | h
  · rw [List.getD_eq_getElem _ _ (by simpa using h)]
    simp
  · rw [List.getD_eq_default _ _ (by simpa using h)]

theorem exists_nonzero_word {a : bm} (h : magVal a ≠ 0) :
    ∃ j, j < a.size ∧ a.b.getD j 0 ≠ 0 := by
  by_contra hc
  push_neg at hc
  exact h ((valWords_take_eq_zero _ _).2 hc)

theorem mulOuter_master (a1 b1 : bm) (hA : ∀ j, a1.b.getD j 0 < wB)
    (hB1 : ∀ j, b1.b.getD j 0 < wB) : ∀ cnt o rr iL,
    (∀ j, rr.getD j 0 < wB) →
    (∀ j, o + a1.size ≤ j → rr.getD j 0 = 0) →
    o + cnt + a1.size ≤ rr.length →
    (mulOuter a1 b1 o cnt rr iL).1.length = rr.length ∧
    valWords (mulOuter a1 b1 o cnt rr iL).1 =
      valWords rr + getVal b1.b o cnt * getVal a1.b 0 a1.size * wB ^ o ∧
    (∀ j, o + cnt + a1.size ≤ j → (mulOuter a1 b1 o cnt rr iL).1.getD j 0 = 0) := by
  intro cnt
  induction cnt with
  | zero =>
    intro o rr iL hrr hz hb
    refine ⟨rfl, ?_, fun j hj => hz j (by omega)⟩
    show valWords rr = valWords rr + getVal b1.b o 0 * getVal a1.b 0 a1.size * wB ^ o
    simp [getVal]
  | succ n ih =>
    intro o rr iL hrr hz hb
    simp only [mulOuter]
    by_cases hb0 : b1.b.getD o 0 = 0
    · rw [if_pos hb0]
      have hz1 : ∀ j, o + 1 + a1.size ≤ j → rr.getD j 0 = 0 := fun j hj => hz j (by omega)
      obtain ⟨hl, hv, hzz⟩ := ih (o+1) rr iL hrr hz1 (by omega)
      refine ⟨hl, ?_, fun j hj => hzz j (by omega)⟩
      rw [hv]
      simp only [getVal, hb0]
      have hpow : wB ^ (o + 1) = wB ^ o * wB := pow_succ wB o
      rw [hpow]
      ring
    · rw [if_neg hb0]
      set inner := mulInner a1 (b1.b.getD o 0) o 0 a1.size 0 rr with hinner
      have hilen : inner.length = rr.length := mulInner_length _ _ _ _ _ _ _
      have hient : ∀ j, inner.getD j 0 < wB := mulInner_entries _ _ _ _ _ _ _ hrr
      have hiz : ∀ j, o + 1 + a1.size ≤ j → inner.getD j 0 = 0 := by
        intro j hj
        rw [hinner, mulInner_zero_above _ _ _ _ _ _ _ j (by omega)]
        exact hz j (by omega)
      have hival : valWords inner =
          valWords rr + (0 + b1.b.getD o 0 * getVal a1.b 0 a1.size) * wB ^ (o + 0) := by
        rw [hinner]
        exact mulInner_val a1 (b1.b.getD o 0) o (hB1 o) hA a1.size 0 0 rr hrr wB_pos
          (by omega) (hz _ (by omega))
      obtain ⟨hl, hv, hzz⟩ := ih (o+1) inner a1.size hient hiz (by omega)
      refine ⟨by rw [hl, hilen], ?_, fun j hj => hzz j (by omega)⟩
      rw [hv, hival]
      simp only [getVal]
      have hpow : wB ^ (o + 1) = wB ^ o * wB := pow_succ wB o
      rw [hpow, Nat.add_zero, Nat.zero_add]
      ring

theorem mulOuter_iLast_mem (a1 b1 : bm) : ∀ cnt o rr iL,
    (mulOuter a1 b1 o cnt rr iL).2 = iL ∨ (mulOuter a1 b1 o cnt rr iL).2 = a1.size := by
  intro cnt
  induction cnt with
  | zero => intro o rr iL; left; rfl
  | succ n ih =>
    intro o rr iL
    simp only [mulOuter]
    by_cases hb0 : b1.b.getD o 0 = 0
    · rw [if_pos hb0]; exact ih (o+1) rr iL
    · rw [if_neg hb0]
      rcases ih (o+1) (mulInner a1 (b1.b.getD o 0) o 0 a1.size 0 rr) a1.size with h | h
      · right; exact h
      · right; exact h

theorem mulOuter_iLast_eq (a1 b1 : bm) : ∀ cnt o rr iL,
    (∃ j, o ≤ j ∧ j < o + cnt ∧ b1.b.getD j 0 ≠ 0) →
    (mulOuter a1 b1 o cnt rr iL).2 = a1.size := by
  intro cnt
  induction cnt with
  | zero =>
    intro o rr iL ⟨j, h1, h2, _⟩
    omega
  | succ n ih =>
    intro o rr iL ⟨j, h1, h2, h3⟩
    simp only [mulOuter]
    by_cases hb0 : b1.b.getD o 0 = 0
    · rw [if_pos hb0]
      refine ih (o+1) rr iL ⟨j, ?_, by omega, h3⟩
      rcases Nat.lt_or_ge j (o+1) with hj | hj
      · have : j = o := by omega
        rw [this] at h3
        exact absurd hb0 h3
      · exact hj
    · rw [if_neg hb0]
      rcases mulOuter_iLast_mem a1 b1 (n) (o+1)
        (mulInner a1 (b1.b.getD o 0) o 0 a1.size 0 rr) a1.size with h | h
      · exact h
      · exact h

theorem bm_set_size_of_zero (a : bm) (s : Nat) (h : a.maxs = 0) :
    bm_set_size a s = (BM_SUCCESS, { a with maxs := 32, size := s }) := by
  unfold bm_set_size
  rw [if_neg (by omega)]
  rfl

theorem bm_set_result (d a : bm) (h : d.maxs = 0 ∨ d.maxs = 32) (ham : a.maxs = 32) :
    (bm_set d a).1 = BM_SUCCESS ∧
    (bm_set d a).2.sign = a.sign ∧ (bm_set d a).2.size = a.size ∧
    (bm_set d a).2.b = writeWords d.b (a.b.take a.size) := by
  rcases h with h | h
  · have hgt : a.maxs > d.maxs := by omega
    unfold bm_set
    rw [if_pos hgt, bm_set_size_of_zero d a.maxs h]
    simp [BM_SUCCESS]
  · have hgt : ¬a.maxs > d.maxs := by omega
    unfold bm_set
    rw [if_neg hgt]
    simp [BM_SUCCESS]

theorem mul_core (a1 b1 : bm) (h1 : WF a1) (h2 : WF b1)
    (_hn1 : magVal a1 ≠ 0) (hn2 : magVal b1 ≠ 0) (hm : a1.size + b1.size ≤ 32) :
    valWords (mulOuter a1 b1 0 b1.size (List.replicate 32 0) 0).1 =
      magVal b1 * magVal a1 ∧
    (mulOuter a1 b1 0 b1.size (List.replicate 32 0) 0).2 = a1.size ∧
    (∀ j, b1.size + a1.size ≤ j →
      (mulOuter a1 b1 0 b1.size (List.replicate 32 0) 0).1.getD j 0 = 0) ∧
    (mulOuter a1 b1 0 b1.size (List.replicate 32 0) 0).1.length = 32 := by
  have hA : ∀ j, a1.b.getD j 0 < wB := getD_lt_of_WF h1
  have hB1 : ∀ j, b1.b.getD j 0 < wB := getD_lt_of_WF h2
  obtain ⟨hl, hv, hz⟩ := mulOuter_master a1 b1 hA hB1 b1.size 0 (List.replicate 32 0) 0
    (fun j => by rw [getD_replicate_zero]; exact wB_pos)
    (fun j _ => getD_replicate_zero _ _)
    (by simpa using (by omega : b1.size + a1.size ≤ 32))
  refine ⟨?_, ?_, fun j hj => hz j (by omega), by rw [hl]; simp⟩
  · rw [hv]
    have hz0 : valWords (List.replicate 32 (0 : Nat)) = 0 := by
      rw [valWords_eq_zero]
      intro w hw
      simpa using (List.eq_of_mem_replicate hw)
    rw [hz0, getVal_eq_magVal h1 _ (le_refl _), getVal_eq_magVal h2 _ (le_refl _)]
    simp
  · refine mulOuter_iLast_eq a1 b1 b1.size 0 (List.replicate 32 0) 0 ?_
    rcases exists_nonzero_word hn2 with ⟨j, hj, hne⟩
    exact ⟨j, by omega, by omega, hne⟩


theorem bm_mul_branch (r a1 b1 : bm) (s0 : Int) (h1 : WF a1) (h2 : WF b1)
    (hn1 : magVal a1 ≠ 0) (hn2 : magVal b1 ≠ 0) (hm : a1.size + b1.size ≤ 32)
    (hrl : r.b.length = 32) (hmx : r.maxs = 0 ∨ r.maxs = 32) :
    magVal (bm_set r
      { sign := s0,
        size := trimSize (mulOuter a1 b1 0 b1.size (List.replicate 32 0) 0).1
          (b1.size + (mulOuter a1 b1 0 b1.size (List.replicate 32 0) 0).2),
        maxs := BM_MAX_SIZE,
        b := (mulOuter a1 b1 0 b1.size (List.replicate 32 0) 0).1 }).2 ≠ 0 := by
  obtain ⟨hv, hiL, hzz, hlen⟩ := mul_core a1 b1 h1 h2 hn1 hn2 hm
  rw [hiL]
  set p1 := (mulOuter a1 b1 0 b1.size (List.replicate 32 0) 0).1 with hp1
  set t := trimSize p1 (b1.size + a1.size) with ht
  have htle : t ≤ b1.size + a1.size := trimSize_le _ _
  obtain ⟨hs1, hs2, hs3, hs4⟩ := bm_set_result r
    { sign := s0, size := t, maxs := BM_MAX_SIZE, b := p1 } hmx rfl
  rw [magVal, hs3, hs4]
  have htk : (p1.take t).length = t := by
    rw [List.length_take, hlen]
    omega
  rw [take_writeWords_of_len r.b (p1.take t) t htk (by rw [htk, hrl]; omega)]
  have hz2 : ∀ j, t ≤ j → p1.getD j 0 = 0 := by
    intro j hj
    rcases Nat.lt_or_ge j (b1.size + a1.size) with hjn | hjn
    · exact trimSize_zero_between p1 _ j hj hjn
    · exact hzz j hjn
  rw [valWords_take_all p1 t hz2, hv]
  exact Nat.mul_ne_zero hn2 hn1

theorem bm_mul_no_negzero (r a b : bm) (ha : WF a) (hb : WF b) (hrl : r.b.length = 32)
    (hmx : r.maxs = 0 ∨ r.maxs = 32)
    (hok : (bm_mul r a b).1 = BM_SUCCESS)
    (hmag : magVal (bm_mul r a b).2 = 0) :
    (bm_mul r a b).2.sign = BM_POS := by
  by_cases hz : (bm_is_zero a || bm_is_zero b) = true
  · have e : bm_mul r a b = bm_set_si r 0 := by
      unfold bm_mul
      rw [if_pos hz]
    rw [e, bm_set_si_nonneg r 0 (le_refl 0)]
  · have hnz : magVal a ≠ 0 ∧ magVal b ≠ 0 := by
      rw [Bool.or_eq_true, not_or] at hz
      constructor
      · intro h0; exact hz.1 ((bm_is_zero_iff a).2 h0)
      · intro h0; exact hz.2 ((bm_is_zero_iff b).2 h0)
    by_cases hm : a.size + b.size > BM_MAX_SIZE
    · exfalso
      have e : bm_mul r a b = (-BM_ERROR_NUMBER_TOO_BIG, r) := by
        unfold bm_mul
        rw [if_neg hz, if_pos hm]
      rw [e] at hok
      norm_num [BM_SUCCESS, BM_ERROR_NUMBER_TOO_BIG] at hok
    · exfalso
      push_neg at hm
      by_cases hab : a.size ≥ b.size
      · have e : bm_mul r a b = (BM_SUCCESS, (bm_set r
            { sign := a.sign * b.sign,
              size := trimSize (mulOuter a b 0 b.size (List.replicate 32 0) 0).1
                (b.size + (mulOuter a b 0 b.size (List.replicate 32 0) 0).2),
              maxs := BM_MAX_SIZE,
              b := (mulOuter a b 0 b.size (List.replicate 32 0) 0).1 }).2) := by
          unfold bm_mul
          rw [if_neg hz, if_neg (by omega), if_pos hab, Nat.min_eq_right hab]
        rw [e] at hmag
        exact bm_mul_branch r a b (a.sign * b.sign) ha hb hnz.1 hnz.2
          (by unfold BM_MAX_SIZE at hm; omega) hrl hmx hmag
      · push_neg at hab
        have e : bm_mul r a b = (BM_SUCCESS, (bm_set r
            { sign := a.sign * b.sign,
              size := trimSize (mulOuter b a 0 a.size (List.replicate 32 0) 0).1
                (a.size + (mulOuter b a 0 a.size (List.replicate 32 0) 0).2),
              maxs := BM_MAX_SIZE,
              b := (mulOuter b a 0 a.size (List.replicate 32 0) 0).1 }).2) := by
          unfold bm_mul
          rw [if_neg hz, if_neg (by omega), if_neg (by omega), Nat.min_eq_left (by omega)]
        rw [e] at hmag
        exact bm_mul_branch r b a (a.sign * b.sign) hb ha hnz.2 hnz.1
          (by unfold BM_MAX_SIZE at hm; omega) hrl hmx hmag

theorem bm_set_si_no_negzero (r : bm) (l : Int) (h1 : -(2 ^ 31) ≤ l) (h2 : l < 2 ^ 31)
    (hrl : r.b.length = 32) (hmag : magVal (bm_set_si r l).2 = 0) :
    (bm_set_si r l).2.sign = BM_POS := by
  rcases le_or_lt 0 l with hl | hl
  · rw [bm_set_si_nonneg r l hl]
  · exfalso
    rw [bm_set_si_negat r l hl] at hmag
    have hv : (-l).toNat < wB := by
      show (-l).toNat < 4294967296
      omega
    have hv1 : 1 ≤ (-l).toNat := by omega
    rw [magVal] at hmag
    simp only at hmag
    rw [valWords_take_one, getD_set_self r.b 0 _ (by omega), Nat.mod_eq_of_lt hv] at hmag
    omega

theorem bm_set_ui_sign (r : bm) (l : Nat) : (bm_set_ui r l).2.sign = BM_POS := by
  rw [bm_set_ui, bm_set_size_one]
  simp [BM_SUCCESS]

theorem bm_set_b_sign (r : bm) (s : List Nat) (h : (bm_set_b r s).1 = BM_SUCCESS) :
    (bm_set_b r s).2.sign = BM_POS := by
  unfold bm_set_b at h ⊢
  by_cases hlen : s.length < 1
  · rw [if_pos hlen] at h
    norm_num [BM_SUCCESS, BM_ERROR_NOT_A_NUMBER] at h
  · rw [if_neg hlen] at h ⊢
    by_cases hgt : get_size_in_longs s.length > r.maxs
    · have hpos : 0 < get_size_in_longs s.length := by
        unfold get_size_in_longs
        omega
      rcases Nat.eq_zero_or_pos r.maxs with h0 | h0
      · simp [hgt, h0, bm_resize, BM_SUCCESS, hpos]
      · have hmx : ¬r.maxs = 0 := by omega
        simp [hgt, bm_resize, hmx, BM_SUCCESS, BM_ERROR_NUMBER_TOO_BIG] at h
    · simp [hgt, BM_SUCCESS]

/-- C3 amended: negative zero is unobservable through bm_add (on
well-formed operands whose magnitude sum fits the 1024-bit capacity),
bm_mul (on well-formed operands), bm_set_si (for int32-range inputs),
bm_set_ui and bm_set_b; but bm_sub can yield magnitude 0 with NEGATIVE
sign (for example (-5) - (-5)), and the divide remainder and the shifts
inherit the same defect. -/
theorem claim_C3_no_negative_zero_amended :
    (∀ r a b, WF a → WF b → r.b.length = 32 → magVal a + magVal b < wB ^ 32 →
      (bm_add r a b).1 = BM_SUCCESS → magVal (bm_add r a b).2 = 0 →
      (bm_add r a b).2.sign = BM_POS) ∧
    (∀ r a b, WF a → WF b → r.b.length = 32 → (r.maxs = 0 ∨ r.maxs = 32) →
      (bm_mul r a b).1 = BM_SUCCESS → magVal (bm_mul r a b).2 = 0 →
      (bm_mul r a b).2.sign = BM_POS) ∧
    (∀ r l, -(2 ^ 31) ≤ l → l < 2 ^ 31 → r.b.length = 32 →
      magVal (bm_set_si r l).2 = 0 → (bm_set_si r l).2.sign = BM_POS) ∧
    (∀ r l, (bm_set_ui r l).2.sign = BM_POS) ∧
    (∀ r s, (bm_set_b r s).1 = BM_SUCCESS → (bm_set_b r s).2.sign = BM_POS) :=
  ⟨fun r a b ha hb hrl hfit => bm_add_no_negzero r a b ha hb hrl hfit,
   fun r a b ha hb hrl hmx => bm_mul_no_negzero r a b ha hb hrl hmx,
   bm_set_si_no_negzero, bm_set_ui_sign, bm_set_b_sign⟩

/-- Witness for the C3 amended theorem: adding 5 and -5 gives magnitude 0
with POSITIVE sign. -/
theorem claim_C3_no_negative_zero_amended_witness :
    (bm_add bm_fresh (mkbm 1 [5]) (mkbm (-1) [5])).2.sign = BM_POS :=
  claim_C3_no_negative_zero_amended.1 bm_fresh (mkbm 1 [5]) (mkbm (-1) [5])
    (by decide) (by decide) (by decide) (by decide) (by decide) (by decide)

/-! Big-endian byte string algebra, used to state what bm_get_b and
bm_set_b compute. -/

theorem lor_shiftLeft_add (k : Nat) : ∀ a b, b < 2 ^ k → ((a <<< k) ||| b) = a * 2 ^ k + b := by
  induction k with
  | zero =>
    intro a b hb
    have hb0 : b = 0 := by omega
    simp [hb0, Nat.shiftLeft_zero]
  | succ k ih =>
    intro a b hb
    have hbit1 : a <<< (k+1) = Nat.bit false (a <<< k) := by
      rw [Nat.shiftLeft_succ, Nat.bit_val]
      simp
    have hbit2 : b = Nat.bit (Nat.bodd b) (b / 2) := by
      rw [← Nat.div2_val, Nat.bit_decomp]
    have hdiv : b / 2 < 2 ^ k := by
      have h2 : (2:Nat) ^ (k+1) = 2 * 2 ^ k := by ring
      omega
    calc (a <<< (k+1)) ||| b
        = (Nat.bit false (a <<< k)) ||| (Nat.bit (Nat.bodd b) (b / 2)) := by
          rw [← hbit1, ← hbit2]
      _ = Nat.bit (false || Nat.bodd b) ((a <<< k) ||| (b / 2)) := Nat.lor_bit _ _ _ _
      _ = Nat.bit (Nat.bodd b) (a * 2 ^ k + b / 2) := by rw [ih a (b/2) hdiv, Bool.false_or]
      _ = 2 * (a * 2 ^ k + b / 2) + (Nat.bodd b).toNat := Nat.bit_val _ _
      _ = a * 2 ^ (k+1) + b := by
          have hmod : (Nat.bodd b).toNat = b % 2 := by
            cases hB : Nat.bodd b
            · simp [Nat.mod_two_of_bodd, hB]
            · simp [Nat.mod_two_of_bodd, hB]
          rw [hmod]
          calc 2 * (a * 2 ^ k + b / 2) + b % 2
              = a * (2 ^ k * 2) + (2 * (b / 2) + b % 2) := by ring
            _ = a * 2 ^ (k+1) + b := by rw [← pow_succ]; omega

theorem beVal_cons (x : Nat) (s : List Nat) :
    beVal (x :: s) = x * 256 ^ s.length + beVal s := rfl

theorem beVal_append (u v : List Nat) :
    beVal (u ++ v) = beVal u * 256 ^ v.length + beVal v := by
  induction u with
  | nil => simp [beVal]
  | cons x u ih =>
    simp only [List.cons_append, beVal_cons, ih, List.length_append]
    rw [pow_add]
    ring

theorem beVal_append_one (s : List Nat) (x : Nat) :
    beVal (s ++ [x]) = beVal s * 256 + x := by
  rw [beVal_append]
  simp [beVal]

theorem beVal_lt (s : List Nat) (h : ∀ x ∈ s, x < 256) : beVal s < 256 ^ s.length := by
  induction s with
  | nil => simp [beVal]
  | cons x u ih =>
    have hx : x < 256 := h x (List.mem_cons_self x u)
    have hu : beVal u < 256 ^ u.length := ih fun y hy => h y (List.mem_cons_of_mem x hy)
    rw [beVal_cons, List.length_cons, pow_succ]
    calc x * 256 ^ u.length + beVal u < x * 256 ^ u.length + 256 ^ u.length := by omega
      _ = (x + 1) * 256 ^ u.length := by ring
      _ ≤ 256 * 256 ^ u.length := Nat.mul_le_mul_right _ (by omega)
      _ = 256 ^ u.length * 256 := by ring

theorem bePad_length : ∀ k v, (bePad k v).length = k := by
  intro k
  induction k with
  | zero => intro v; rfl
  | succ k ih => intro v; simp [bePad, ih]

theorem bePad_beVal (s : List Nat) (h : ∀ x ∈ s, x < 256) :
    bePad s.length (beVal s) = s := by
  induction s using List.reverseRecOn with
  | nil => rfl
  | append_singleton u x ih =>
    rw [beVal_append_one, List.length_append, List.length_singleton]
    show bePad (u.length + 1) (beVal u * 256 + x) = u ++ [x]
    unfold bePad
    have hx : x < 256 := h x (by simp)
    have hdiv : (beVal u * 256 + x) / 256 = beVal u := by omega
    have hmod : (beVal u * 256 + x) % 256 = x := by omega
    rw [hdiv, hmod, ih fun y hy => h y (by simp [hy])]

theorem bePad_succ (k v : Nat) : bePad (k + 1) v = bePad k (v / 256) ++ [v % 256] := rfl

theorem bePad_split : ∀ k j v, bePad (j + k) v =
    bePad j (v / 256 ^ k) ++ bePad k (v % 256 ^ k) := by
  intro k
  induction k with
  | zero =>
    intro j v
    simp [bePad, Nat.mod_one]
  | succ k ih =>
    intro j v
    have hpow : (256:Nat) ^ (k + 1) = 256 * 256 ^ k := by rw [pow_succ]; ring
    have e1 : bePad (j + (k + 1)) v = bePad (j + k) (v / 256) ++ [v % 256] := bePad_succ _ _
    rw [e1, ih j (v / 256), bePad_succ]
    have h1 : v / 256 / 256 ^ k = v / 256 ^ (k + 1) := by
      rw [Nat.div_div_eq_div_mul, hpow]
    have h2 : v / 256 % 256 ^ k = v % 256 ^ (k + 1) / 256 := by
      rw [hpow, Nat.mod_mul_right_div_self]
    have h3 : v % 256 = v % 256 ^ (k + 1) % 256 := by
      rw [Nat.mod_mod_of_dvd]
      exact dvd_pow_self 256 (by omega)
    rw [h1, h2, h3, List.append_assoc]

theorem beBytes_small {v : Nat} (h : v < 256) : beBytes v = [v] := by
  rw [beBytes]
  simp [h]

theorem beBytes_step {v : Nat} (h : 256 ≤ v) : beBytes v = beBytes (v / 256) ++ [v % 256] := by
  rw [beBytes]
  simp [show ¬v < 256 by omega]

theorem beBytes_mul_pow_add : ∀ k t low, 1 ≤ t → low < 256 ^ k →
    beBytes (t * 256 ^ k + low) = beBytes t ++ bePad k low := by
  intro k
  induction k with
  | zero =>
    intro t low ht hlow
    have h0 : low = 0 := by omega
    simp [h0, bePad]
  | succ k ih =>
    intro t low ht hlow
    have hge : 256 ≤ t * 256 ^ (k + 1) + low := by
      have h1 : 256 ^ (k + 1) ≤ t * 256 ^ (k + 1) := Nat.le_mul_of_pos_left _ (by omega)
      have h2 : 256 ≤ 256 ^ (k + 1) := by
        calc (256:Nat) = 256 ^ 1 := (pow_one 256).symm
        _ ≤ 256 ^ (k + 1) := Nat.pow_le_pow_right (by omega) (by omega)
      omega
    rw [beBytes_step hge]
    have hdiv : (t * 256 ^ (k + 1) + low) / 256 = t * 256 ^ k + low / 256 := by
      rw [pow_succ]
      rw [show t * (256 ^ k * 256) + low = t * 256 ^ k * 256 + low by ring]
      omega
    have hmod : (t * 256 ^ (k + 1) + low) % 256 = low % 256 := by
      rw [pow_succ]
      rw [show t * (256 ^ k * 256) + low = t * 256 ^ k * 256 + low by ring]
      omega
    rw [hdiv, hmod, ih t (low / 256) ht (by
      rw [pow_succ] at hlow
      omega)]
    show beBytes t ++ bePad k (low / 256) ++ [low % 256] = beBytes t ++ bePad (k + 1) low
    rw [List.append_assoc]
    rfl

theorem beBytes_beVal (s : List Nat) (hne : s ≠ []) (h0 : s.getD 0 0 ≠ 0)
    (hlt : ∀ x ∈ s, x < 256) : beBytes (beVal s) = s := by
  cases s with
  | nil => exact absurd rfl hne
  | cons x u =>
    have hx : x < 256 := hlt x (List.mem_cons_self x u)
    have hx1 : 1 ≤ x := by
      have := h0
      simp only [List.getD_cons_zero] at this
      omega
    cases u with
    | nil =>
      show beBytes (beVal [x]) = [x]
      have : beVal [x] = x := by simp [beVal]
      rw [this, beBytes_small hx]
    | cons y v =>
      rw [beVal_cons]
      have hu : beVal (y :: v) < 256 ^ (y :: v).length :=
        beVal_lt _ fun z hz => hlt z (List.mem_cons_of_mem x hz)
      rw [beBytes_mul_pow_add _ x (beVal (y :: v)) hx1 hu, beBytes_small hx,
        bePad_beVal _ fun z hz => hlt z (List.mem_cons_of_mem x hz)]
      rfl

theorem beBytes_len_range : ∀ k t, 256 ^ k ≤ t → t < 256 ^ (k + 1) →
    (beBytes t).length = k + 1 := by
  intro k
  induction k with
  | zero =>
    intro t h1 h2
    rw [beBytes_small (by simpa using h2)]
    rfl
  | succ k ih =>
    intro t h1 h2
    have hge : 256 ≤ t := by
      have : 256 ≤ 256 ^ (k + 1) := by
        calc (256:Nat) = 256 ^ 1 := (pow_one 256).symm
        _ ≤ 256 ^ (k + 1) := Nat.pow_le_pow_right (by omega) (by omega)
      omega
    rw [beBytes_step hge]
    have hd1 : 256 ^ k ≤ t / 256 := by
      rw [Nat.le_div_iff_mul_le (by omega)]
      calc 256 ^ k * 256 = 256 ^ (k + 1) := (pow_succ 256 k).symm
      _ ≤ t := h1
    have hd2 : t / 256 < 256 ^ (k + 1) := by
      rw [Nat.div_lt_iff_lt_mul (by omega)]
      calc t < 256 ^ (k + 2) := h2
      _ = 256 ^ (k + 1) * 256 := pow_succ 256 (k+1)
    rw [List.length_append, ih (t / 256) hd1 hd2]
    rfl

theorem beBytes_len_le : ∀ k v, v < 256 ^ k → 1 ≤ k → (beBytes v).length ≤ k := by
  intro k
  induction k with
  | zero => intro v h1 h2; omega
  | succ k ih =>
    intro v h1 h2
    rcases Nat.lt_or_ge v 256 with hv | hv
    · rw [beBytes_small hv]
      simp
    · rw [beBytes_step hv, List.length_append]
      have hk : 1 ≤ k := by
        by_contra hc
        have : k = 0 := by omega
        rw [this] at h1
        simp at h1
        omega
      have := ih (v / 256) (by
        rw [Nat.div_lt_iff_lt_mul (by omega)]
        calc v < 256 ^ (k + 1) := h1
        _ = 256 ^ k * 256 := pow_succ 256 k) hk
      simp only [List.length_singleton]
      omega

/-! What bm_get_b computes: the minimal big-endian bytes of the
magnitude, twos-complemented when the sign is negative. -/

theorem wB_as_pow : wB = 256 ^ 4 := by norm_num [wB]

theorem wB_pow (m : Nat) : wB ^ m = 256 ^ (4 * m) := by
  rw [wB_as_pow, ← pow_mul]

theorem word4_eq_bePad (w : Nat) (hw : w < wB) : word4 w = bePad 4 w := by
  unfold word4
  show _ = bePad 3 (w / 256) ++ [w % 256]
  show _ = (bePad 2 (w / 256 / 256) ++ [w / 256 % 256]) ++ [w % 256]
  show _ = ((bePad 1 (w / 256 / 256 / 256) ++ [w / 256 / 256 % 256]) ++ [w / 256 % 256]) ++ [w % 256]
  show _ = ((([w / 256 / 256 / 256 % 256] ++ [w / 256 / 256 % 256]) ++ [w / 256 % 256]) ++ [w % 256])
  have h24 : w >>> 24 % 256 = w / 256 / 256 / 256 % 256 := by
    rw [Nat.shiftRight_eq_div_pow]
    norm_num [Nat.div_div_eq_div_mul]
  have h16 : w >>> 16 % 256 = w / 256 / 256 % 256 := by
    rw [Nat.shiftRight_eq_div_pow]
    norm_num [Nat.div_div_eq_div_mul]
  have h8 : w >>> 8 % 256 = w / 256 % 256 := by
    rw [Nat.shiftRight_eq_div_pow]
  simp [h24, h16, h8]

theorem lowBytes_length (l : List Nat) : ∀ m, (lowBytes l m).length = 4 * m := by
  intro m
  induction m with
  | zero => rfl
  | succ m ih =>
    show (word4 (l.getD m 0) ++ lowBytes l m).length = 4 * (m + 1)
    rw [List.length_append, ih]
    simp [word4]
    omega

theorem lowBytes_eq_bePad (l : List Nat) (hl : ∀ j, l.getD j 0 < wB) :
    ∀ m, lowBytes l m = bePad (4 * m) (valWords (l.take m)) := by
  intro m
  induction m with
  | zero => rfl
  | succ m ih =>
    show word4 (l.getD m 0) ++ lowBytes l m = bePad (4 * (m + 1)) (valWords (l.take (m + 1)))
    have hv := valWords_take_succ_any l m
    have hlow : valWords (l.take m) < wB ^ m := by
      have h1 : valWords (l.take m) < wB ^ (l.take m).length :=
        valWords_lt _ (fun w hw => by
          rcases List.mem_iff_getElem.1 (List.take_subset _ _ hw) with ⟨j, hj, rfl⟩
          rw [← List.getD_eq_getElem l 0 hj]
          exact hl j)
      calc valWords (l.take m) < wB ^ (l.take m).length := h1
        _ ≤ wB ^ m := Nat.pow_le_pow_right (by norm_num [wB]) (by
            rw [List.length_take]
            omega)
    have h4 : 4 * (m + 1) = 4 + 4 * m := by omega
    rw [hv, h4, bePad_split (4 * m) 4 _]
    have hdiv : (valWords (l.take m) + l.getD m 0 * wB ^ m) / 256 ^ (4 * m) = l.getD m 0 := by
      rw [← wB_pow]
      rw [Nat.add_mul_div_right _ _ (Nat.pos_pow_of_pos m wB_pos)]
      rw [Nat.div_eq_of_lt hlow]
      omega
    have hmod : (valWords (l.take m) + l.getD m 0 * wB ^ m) % 256 ^ (4 * m) =
        valWords (l.take m) := by
      rw [← wB_pow, Nat.add_mul_mod_self_right, Nat.mod_eq_of_lt hlow]
    rw [hdiv, hmod, ih, word4_eq_bePad _ (hl m)]

theorem topBytes_eq_beBytes (top m : Nat) (h0 : 0 < top) (hlt : top < wB) :
    topBytes (topByteCount top m) top = beBytes top := by
  unfold topByteCount
  by_cases h4 : top > 0xffffff
  · rw [if_pos h4]
    have e1 : beBytes top = beBytes (top / 256) ++ [top % 256] := beBytes_step (by omega)
    have e2 : beBytes (top / 256) = beBytes (top / 256 / 256) ++ [top / 256 % 256] :=
      beBytes_step (by omega)
    have e3 : beBytes (top / 256 / 256) = beBytes (top / 256 / 256 / 256) ++
        [top / 256 / 256 % 256] := beBytes_step (by omega)
    have e4 : beBytes (top / 256 / 256 / 256) = [top / 256 / 256 / 256] :=
      beBytes_small (by
        have hw : top < 4294967296 := hlt
        omega)
    rw [e1, e2, e3, e4]
    unfold topBytes
    have h24 : top >>> 24 % 256 = top / 256 / 256 / 256 := by
      rw [Nat.shiftRight_eq_div_pow]
      have hw : top < 4294967296 := hlt
      norm_num [Nat.div_div_eq_div_mul]
      omega
    have h16 : top >>> 16 % 256 = top / 256 / 256 % 256 := by
      rw [Nat.shiftRight_eq_div_pow]
      norm_num [Nat.div_div_eq_div_mul]
    have h8 : top >>> 8 % 256 = top / 256 % 256 := by
      rw [Nat.shiftRight_eq_div_pow]
    simp [h24, h16, h8]
  · rw [if_neg h4]
    by_cases h3 : top > 0xffff
    · rw [if_pos h3]
      have e1 : beBytes top = beBytes (top / 256) ++ [top % 256] := beBytes_step (by omega)
      have e2 : beBytes (top / 256) = beBytes (top / 256 / 256) ++ [top / 256 % 256] :=
        beBytes_step (by omega)
      have e3 : beBytes (top / 256 / 256) = [top / 256 / 256] := beBytes_small (by omega)
      rw [e1, e2, e3]
      unfold topBytes
      have h16 : top >>> 16 % 256 = top / 256 / 256 := by
        rw [Nat.shiftRight_eq_div_pow]
        norm_num [Nat.div_div_eq_div_mul]
        omega
      have h8 : top >>> 8 % 256 = top / 256 % 256 := by
        rw [Nat.shiftRight_eq_div_pow]
      simp [h16, h8]
    · rw [if_neg h3]
      by_cases h2 : top > 0xff
      · rw [if_pos h2]
        have e1 : beBytes top = beBytes (top / 256) ++ [top % 256] := beBytes_step (by omega)
        have e2 : beBytes (top / 256) = [top / 256] := beBytes_small (by omega)
        rw [e1, e2]
        unfold topBytes
        have h8 : top >>> 8 % 256 = top / 256 := by
          rw [Nat.shiftRight_eq_div_pow]
          norm_num
          omega
        simp [h8]
      · rw [if_neg h2, if_pos (by omega : top > 0)]
        rw [beBytes_small (by omega)]
        unfold topBytes
        simp [Nat.mod_eq_of_lt (by omega : top < 256)]

theorem bm_get_b_core {a : bm} (ha : WF a) :
    topBytes (topByteCount (a.b.getD (a.size - 1) 0) (a.size - 1)) (a.b.getD (a.size - 1) 0) ++
      lowBytes a.b (a.size - 1) = beBytes (magVal a) := by
  obtain ⟨hm, hl, hs1, hs2, hw, hsn, hc, hz, hk⟩ := ha
  set m := a.size - 1 with hmdef
  set top := a.b.getD m 0 with htop
  have htlt : top < wB := getD_lt_of_WF ⟨hm, hl, hs1, hs2, hw, hsn, hc, hz, hk⟩ m
  have hmag : magVal a = valWords (a.b.take m) + top * wB ^ m := by
    rw [magVal, show a.size = m + 1 by omega]
    exact valWords_take_succ_any a.b m
  rcases Nat.eq_zero_or_pos m with hm0 | hmpos
  · rw [hm0]
    show topBytes (topByteCount top 0) top ++ [] = beBytes (magVal a)
    rw [List.append_nil]
    have hmag0 : magVal a = top := by
      rw [hmag, hm0]
      simp [valWords]
    rcases Nat.eq_zero_or_pos top with ht0 | htpos
    · rw [hmag0, ht0]
      rw [beBytes_small (by omega)]
      rfl
    · rw [hmag0]
      exact topBytes_eq_beBytes top 0 htpos htlt
  · have htpos : 0 < top := by
      rcases hc with h1 | h1
      · omega
      · exact Nat.pos_of_ne_zero h1
    have hlow : valWords (a.b.take m) < wB ^ m := by
      have h1 : valWords (a.b.take m) < wB ^ (a.b.take m).length :=
        valWords_lt _ (fun w hwm => hw w (List.take_subset _ _ hwm))
      calc valWords (a.b.take m) < wB ^ (a.b.take m).length := h1
        _ ≤ wB ^ m := Nat.pow_le_pow_right (by norm_num [wB]) (by
            rw [List.length_take]; omega)
    rw [topBytes_eq_beBytes top m htpos htlt,
      lowBytes_eq_bePad a.b (getD_lt_of_WF ⟨hm, hl, hs1, hs2, hw, hsn, hc, hz, hk⟩) m,
      hmag]
    rw [show valWords (a.b.take m) + top * wB ^ m = top * 256 ^ (4 * m) +
      valWords (a.b.take m) by rw [← wB_pow]; ring]
    rw [beBytes_mul_pow_add (4 * m) top _ (by omega) (by rw [← wB_pow]; exact hlow)]

theorem negBytes_length : ∀ l : List Nat, (negBytes l).2.length = l.length := by
  intro l
  induction l with
  | nil => rfl
  | cons x xs ih => simp [negBytes, ih]

theorem bm_get_b_spec {a : bm} (ha : WF a) (i : Nat) (hi : 1 ≤ i)
    (hfit : a.size ≤ get_size_in_longs i) :
    bm_get_b a i = (((beBytes (magVal a)).length : Int),
      if a.sign = BM_NEG then bm_neg_b (beBytes (magVal a)) else beBytes (magVal a)) := by
  have hcore := bm_get_b_core ha
  unfold bm_get_b
  rw [if_neg (by omega), if_neg (by omega)]
  simp only [hcore]

/-! What bm_set_b computes. -/

theorem writeWords_length (l ws : List Nat) : (writeWords l ws).length = l.length := by
  unfold writeWords
  rw [List.length_take, List.length_append, List.length_drop]
  omega

theorem getD_writeWords_ge (l ws : List Nat) (k : Nat) (hk : ws.length ≤ k) :
    (writeWords l ws).getD k 0 = l.getD k 0 := by
  rcases Nat.lt_or_ge k l.length with hkl | hkl
  · unfold writeWords
    rw [getD_take _ _ _ hkl]
    rw [List.getD_eq_getElem?_getD, List.getD_eq_getElem?_getD]
    rw [List.getElem?_append_right hk, List.getElem?_drop]
    congr 2
    omega
  · rw [List.getD_eq_default _ _ (by rw [writeWords_length]; omega),
      List.getD_eq_default _ _ hkl]

theorem getD_writeWords_lt (l ws : List Nat) (k : Nat) (hk : k < ws.length)
    (hle : ws.length ≤ l.length) : (writeWords l ws).getD k 0 = ws.getD k 0 := by
  have h1 : (writeWords l ws).take ws.length = ws := take_writeWords l ws hle
  conv_rhs => rw [← h1]
  rw [getD_take _ _ _ hk]

theorem mem_writeWords (l ws : List Nat) (w : Nat) (hw : w ∈ writeWords l ws) :
    w ∈ ws ∨ w ∈ l := by
  have h1 := List.take_subset _ _ hw
  rcases List.mem_append.1 h1 with h | h
  · exact Or.inl h
  · exact Or.inr (List.drop_subset _ _ h)

theorem setbLoop_append (u : List Nat) : ∀ (v : List Nat) (l n : Nat) (ws : List Nat),
    setbLoop (u ++ v) l n ws =
      setbLoop v (setbLoop u l n ws).1 (setbLoop u l n ws).2.1 (setbLoop u l n ws).2.2 := by
  induction u with
  | nil => intro v l n ws; rfl
  | cons x xs ih =>
    intro v l n ws
    show setbLoop (x :: (xs ++ v)) l n ws = _
    simp only [setbLoop]
    by_cases h : (n + 1) % 4 = 0
    · rw [if_pos h, if_pos h]
      exact ih v 0 (n + 1) (ws ++ [((l >>> 8) ||| (x <<< 24)) % wB])
    · rw [if_neg h, if_neg h]
      exact ih v (((l >>> 8) ||| (x <<< 24)) % wB) (n + 1) ws

/-- The staging word update of one bm_set_b loop step, in terms of the bytes
already staged. -/
theorem setbLoop_step_word (x r : Nat) (t : List Nat) (ht : t.length = r) (hr : r ≤ 3)
    (hx : x < 256) (hbt : beVal t < 256 ^ r) :
    ((beVal t * 2 ^ (32 - 8 * r)) >>> 8 ||| x <<< 24) % wB =
      beVal (x :: t) * 2 ^ (24 - 8 * r) ∧
    beVal (x :: t) * 2 ^ (24 - 8 * r) < wB := by
  have hA : (2 : Nat) ^ 24 = 16777216 := by norm_num
  have hwB : wB = 4294967296 := rfl
  have hshift : (beVal t * 2 ^ (32 - 8 * r)) >>> 8 = beVal t * 2 ^ (24 - 8 * r) := by
    rw [Nat.shiftRight_eq_div_pow, show 32 - 8 * r = (24 - 8 * r) + 8 by omega, pow_add,
      ← Nat.mul_assoc]
    exact Nat.mul_div_cancel _ (by norm_num)
  have hlt24 : beVal t * 2 ^ (24 - 8 * r) < 2 ^ 24 := by
    have h1 : beVal t < 2 ^ (8 * r) := by
      calc beVal t < 256 ^ r := hbt
        _ = 2 ^ (8 * r) := by rw [show (256 : Nat) = 2 ^ 8 by norm_num, ← pow_mul]
    calc beVal t * 2 ^ (24 - 8 * r) < 2 ^ (8 * r) * 2 ^ (24 - 8 * r) :=
        Nat.mul_lt_mul_of_pos_right h1 (Nat.pos_pow_of_pos _ (by norm_num))
      _ = 2 ^ 24 := by rw [← pow_add]; congr 1; omega
  have hval : beVal (x :: t) * 2 ^ (24 - 8 * r) = x * 2 ^ 24 + beVal t * 2 ^ (24 - 8 * r) := by
    rw [beVal_cons, ht, Nat.add_mul, Nat.mul_assoc]
    congr 1
    congr 1
    rw [show (256 : Nat) = 2 ^ 8 by norm_num, ← pow_mul, ← pow_add]
    congr 1
    omega
  have hbound : x * 2 ^ 24 + beVal t * 2 ^ (24 - 8 * r) < wB := by
    have hx24 : x * 2 ^ 24 ≤ 255 * 2 ^ 24 := Nat.mul_le_mul_right _ (by omega)
    rw [hA] at hx24 hlt24 ⊢
    rw [hwB]
    omega
  constructor
  · rw [hshift, Nat.lor_comm, lor_shiftLeft_add 24 x _ hlt24, hval]
    exact Nat.mod_eq_of_lt hbound
  · rw [hval]
    exact hbound

/-- Invariant of the bm_set_b while loop over the reversed octet string:
the byte count, the number of stored words, their value and the staging
word in terms of the input bytes. -/
theorem setbLoop_inv : ∀ (s : List Nat), (∀ x ∈ s, x < 256) →
    (setbLoop s.reverse 0 0 []).2.1 = s.length ∧
    (setbLoop s.reverse 0 0 []).2.2.length = s.length / 4 ∧
    (∀ w ∈ (setbLoop s.reverse 0 0 []).2.2, w < wB) ∧
    valWords (setbLoop s.reverse 0 0 []).2.2 = beVal (s.drop (s.length % 4)) ∧
    (setbLoop s.reverse 0 0 []).1 =
      beVal (s.take (s.length % 4)) * 2 ^ (32 - 8 * (s.length % 4)) := by
  intro s
  induction s with
  | nil =>
    intro _
    refine ⟨rfl, rfl, ?_, by decide, by decide⟩
    intro w hw
    exact absurd hw (List.not_mem_nil w)
  | cons x s2 ih =>
    intro hb
    obtain ⟨h1, h2, h3, h4, h5⟩ := ih (fun y hy => hb y (List.mem_cons_of_mem x hy))
    have hx : x < 256 := hb x (List.mem_cons_self x s2)
    have hstep : ∀ l n ws, setbLoop [x] l n ws =
        if (n + 1) % 4 = 0
        then (0, n + 1, ws ++ [((l >>> 8) ||| (x <<< 24)) % wB])
        else (((l >>> 8) ||| (x <<< 24)) % wB, n + 1, ws) := by
      intro l n ws
      simp only [setbLoop]
    have ht_len : (s2.take (s2.length % 4)).length = s2.length % 4 := by
      rw [List.length_take]
      omega
    have hbt : beVal (s2.take (s2.length % 4)) < 256 ^ (s2.length % 4) := by
      have h := beVal_lt (s2.take (s2.length % 4))
        (fun y hy => hb y (List.mem_cons_of_mem x (List.take_subset _ _ hy)))
      rwa [ht_len] at h
    obtain ⟨hw1, hw2⟩ := setbLoop_step_word x (s2.length % 4) (s2.take (s2.length % 4))
      ht_len (by omega) hx hbt
    rw [List.reverse_cons, setbLoop_append, hstep, h1, h5, hw1]
    by_cases hc : (s2.length + 1) % 4 = 0
    · rw [if_pos hc]
      have hr3 : s2.length % 4 = 3 := by omega
      rw [hr3]
      refine ⟨by simp, ?_, ?_, ?_, ?_⟩
      · show ((setbLoop s2.reverse 0 0 []).2.2 ++
            [beVal (x :: s2.take 3) * 2 ^ (24 - 8 * 3)]).length = (x :: s2).length / 4
        rw [List.length_append, h2, List.length_cons]
        show s2.length / 4 + 1 = (s2.length + 1) / 4
        omega
      · intro w hw
        rcases List.mem_append.1 hw with h | h
        · exact h3 w h
        · rw [List.mem_singleton] at h
          rw [h]
          rw [hr3] at hw2
          exact hw2
      · show valWords ((setbLoop s2.reverse 0 0 []).2.2 ++
            [beVal (x :: s2.take 3) * 2 ^ (24 - 8 * 3)]) =
            beVal ((x :: s2).drop ((x :: s2).length % 4))
        rw [List.length_cons, hc, List.drop_zero]
        rw [valWords_append, h2, h4, hr3]
        have hv1 : valWords [beVal (x :: s2.take 3) * 2 ^ (24 - 8 * 3)] =
            beVal (x :: s2.take 3) := by
          simp [valWords]
        rw [hv1]
        conv_rhs => rw [show (x :: s2) = (x :: s2.take 3) ++ s2.drop 3 by
          rw [List.cons_append, List.take_append_drop]]
        rw [beVal_append, List.length_drop]
        rw [wB_pow, show 4 * (s2.length / 4) = s2.length - 3 by omega]
        ring
      · show (0 : Nat) = beVal ((x :: s2).take ((x :: s2).length % 4)) *
            2 ^ (32 - 8 * ((x :: s2).length % 4))
        rw [List.length_cons, hc, List.take_zero]
        simp [beVal]
    · rw [if_neg hc]
      have hr : (s2.length + 1) % 4 = s2.length % 4 + 1 := by omega
      refine ⟨by simp, ?_, h3, ?_, ?_⟩
      · show (setbLoop s2.reverse 0 0 []).2.2.length = (x :: s2).length / 4
        rw [h2, List.length_cons]
        omega
      · show valWords (setbLoop s2.reverse 0 0 []).2.2 =
            beVal ((x :: s2).drop ((x :: s2).length % 4))
        rw [List.length_cons, hr, List.drop_succ_cons]
        exact h4
      · show beVal (x :: s2.take (s2.length % 4)) * 2 ^ (24 - 8 * (s2.length % 4)) =
            beVal ((x :: s2).take ((x :: s2).length % 4)) *
              2 ^ (32 - 8 * ((x :: s2).length % 4))
        rw [List.length_cons, hr, List.take_succ_cons]
        congr 1
        congr 1
        omega

/-- The word list bm_set_b stores, including the flush of a partly filled
staging word: its length is the byte count rounded up to words and its
value is the big-endian value of the octet string. -/
theorem setbLoop_flush (s : List Nat) (hb : ∀ x ∈ s, x < 256) (hne : s ≠ []) :
    ∃ ws : List Nat,
      (if (setbLoop s.reverse 0 0 []).2.1 % 4 ≠ 0
       then (setbLoop s.reverse 0 0 []).2.2 ++
         [(setbLoop s.reverse 0 0 []).1 >>> (32 - (setbLoop s.reverse 0 0 []).2.1 % 4 * 8)]
       else (setbLoop s.reverse 0 0 []).2.2) = ws ∧
      ws.length = get_size_in_longs s.length ∧ valWords ws = beVal s ∧ ∀ w ∈ ws, w < wB := by
  obtain ⟨h1, h2, h3, h4, h5⟩ := setbLoop_inv s hb
  have hlpos : 0 < s.length := List.length_pos.2 hne
  rw [h1]
  by_cases hz : s.length % 4 = 0
  · rw [if_neg (by omega)]
    refine ⟨_, rfl, ?_, ?_, h3⟩
    · rw [h2]
      unfold get_size_in_longs
      omega
    · rw [h4, hz, List.drop_zero]
  · have hsh : (setbLoop s.reverse 0 0 []).1 >>> (32 - s.length % 4 * 8) =
        beVal (s.take (s.length % 4)) := by
      rw [h5, Nat.shiftRight_eq_div_pow,
        show 32 - s.length % 4 * 8 = 32 - 8 * (s.length % 4) by omega]
      exact Nat.mul_div_cancel _ (Nat.pos_pow_of_pos _ (by norm_num))
    have hbnd : beVal (s.take (s.length % 4)) < wB := by
      have h256 : beVal (s.take (s.length % 4)) < 256 ^ (s.take (s.length % 4)).length :=
        beVal_lt _ (fun y hy => hb y (List.take_subset _ _ hy))
      have hlen4 : (s.take (s.length % 4)).length ≤ 3 := by
        rw [List.length_take]
        omega
      calc beVal (s.take (s.length % 4)) < 256 ^ (s.take (s.length % 4)).length := h256
        _ ≤ 256 ^ 3 := Nat.pow_le_pow_right (by norm_num) hlen4
        _ < wB := by rw [show wB = 4294967296 from rfl]; norm_num
    rw [if_pos hz]
    refine ⟨_, rfl, ?_, ?_, ?_⟩
    · rw [List.length_append, h2]
      unfold get_size_in_longs
      simp
      omega
    · rw [hsh, valWords_append, h2, h4]
      have hv1 : valWords [beVal (s.take (s.length % 4))] = beVal (s.take (s.length % 4)) := by
        simp [valWords]
      rw [hv1]
      conv_rhs => rw [← List.take_append_drop (s.length % 4) s]
      rw [beVal_append, List.length_drop]
      rw [wB_pow, show 4 * (s.length / 4) = s.length - s.length % 4 by omega]
      ring
    · intro w hw
      rcases List.mem_append.1 hw with h | h
      · exact h3 w h
      · rw [List.mem_singleton] at h
        rw [h, hsh]
        exact hbnd

/-- bm_set_b on a freshly initialised static bignum: success, a
well-formed result of the rounded-up word count, the magnitude the
big-endian value of the octets, and POSITIVE sign.  Needs a nonzero
leading octet (else the stored top word is zero and the representation is
not canonical) and at most 128 octets (the static capacity). -/
theorem bm_set_b_fresh (s : List Nat) (hne : s ≠ []) (hlen : s.length ≤ 128)
    (hb : ∀ x ∈ s, x < 256) (h0 : s.getD 0 0 ≠ 0) :
    (bm_set_b bm_fresh s).1 = BM_SUCCESS ∧
    WF (bm_set_b bm_fresh s).2 ∧
    (bm_set_b bm_fresh s).2.size = get_size_in_longs s.length ∧
    magVal (bm_set_b bm_fresh s).2 = beVal s ∧
    (bm_set_b bm_fresh s).2.sign = BM_POS := by
  obtain ⟨ws, hws, hwlen, hwval, hwlt⟩ := setbLoop_flush s hb hne
  have hlpos : 0 < s.length := List.length_pos.2 hne
  have hsz1 : 1 ≤ get_size_in_longs s.length := by unfold get_size_in_longs; omega
  have hsz32 : get_size_in_longs s.length ≤ 32 := by unfold get_size_in_longs; omega
  have hc1 : ¬ s.length < 1 := by omega
  have hc2 : get_size_in_longs s.length > bm_fresh.maxs := by
    show get_size_in_longs s.length > 0
    omega
  have hg : bm_resize bm_fresh = (BM_SUCCESS, (⟨0, 0, 32, List.replicate 32 0⟩ : bm)) := rfl
  have hres : bm_set_b bm_fresh s =
      (BM_SUCCESS, (⟨BM_POS, ws.length, 32, writeWords (List.replicate 32 0) ws⟩ : bm)) := by
    unfold bm_set_b
    rw [if_neg hc1]
    simp only []
    rw [if_pos hc2, hg]
    rw [if_neg (show ¬ ((BM_SUCCESS, (⟨0, 0, 32, List.replicate 32 0⟩ : bm)).1 ≠ BM_SUCCESS)
      by decide)]
    rw [hws]
  have hwsle : ws.length ≤ (List.replicate 32 (0 : Nat)).length := by
    rw [List.length_replicate]
    omega
  have hws1 : 1 ≤ ws.length := by omega
  rw [hres]
  have hmag : magVal (⟨BM_POS, ws.length, 32, writeWords (List.replicate 32 0) ws⟩ : bm) =
      beVal s := by
    show valWords ((writeWords (List.replicate 32 0) ws).take ws.length) = beVal s
    rw [take_writeWords _ _ hwsle, hwval]
  have htop : ws.getD (ws.length - 1) 0 ≠ 0 := by
    intro htop0
    have h256 : 256 ^ (s.length - 1) ≤ beVal s := by
      cases s with
      | nil => exact absurd rfl hne
      | cons a as =>
        have ha1 : 1 ≤ a := by
          have ha : a ≠ 0 := h0
          omega
        calc 256 ^ ((a :: as).length - 1) = 256 ^ as.length := by simp
          _ = 1 * 256 ^ as.length := (Nat.one_mul _).symm
          _ ≤ a * 256 ^ as.length := Nat.mul_le_mul_right _ ha1
          _ ≤ beVal (a :: as) := by rw [beVal_cons]; omega
    have hwb : wB ^ (ws.length - 1) ≤ beVal s := by
      calc wB ^ (ws.length - 1) = 256 ^ (4 * (ws.length - 1)) := wB_pow _
        _ ≤ 256 ^ (s.length - 1) := Nat.pow_le_pow_right (by norm_num) (by
            have h := hwlen
            unfold get_size_in_longs at h
            omega)
        _ ≤ beVal s := h256
    have hsmall : valWords ws < wB ^ (ws.length - 1) := by
      have hws_take : ws = ws.take (ws.length - 1 + 1) := by
        rw [show ws.length - 1 + 1 = ws.length by omega, List.take_length]
      have hv : valWords ws = valWords (ws.take (ws.length - 1)) := by
        conv_lhs => rw [hws_take]
        rw [valWords_take_succ_any, htop0]
        simp
      rw [hv]
      calc valWords (ws.take (ws.length - 1)) < wB ^ (ws.take (ws.length - 1)).length :=
          valWords_lt _ (fun w hw => hwlt w (List.take_subset _ _ hw))
        _ ≤ wB ^ (ws.length - 1) := Nat.pow_le_pow_right wB_pos (by
            rw [List.length_take]
            omega)
    rw [hwval] at hsmall
    omega
  refine ⟨rfl, ?_, hwlen, hmag, rfl⟩
  refine ⟨rfl, ?_, hws1, by show ws.length ≤ 32; omega, ?_, Or.inl rfl, Or.inr ?_,
    fun _ => rfl, ?_⟩
  · show (writeWords (List.replicate 32 0) ws).length = 32
    rw [writeWords_length, List.length_replicate]
  · intro w hw
    have hw2 : w ∈ writeWords (List.replicate 32 0) ws := hw
    rcases mem_writeWords _ _ _ hw2 with h | h
    · exact hwlt w h
    · rw [List.eq_of_mem_replicate h]
      exact wB_pos
  · show (writeWords (List.replicate 32 0) ws).getD (ws.length - 1) 0 ≠ 0
    rw [getD_writeWords_lt _ _ _ (by omega) hwsle]
    exact htop
  · intro k _ hk
    have hk2 : ws.length ≤ k := hk
    show (writeWords (List.replicate 32 0) ws).getD k 0 = 0
    rw [getD_writeWords_ge _ _ _ hk2]
    exact getD_replicate_zero 32 k

/-- C5 (amended): the byte round trip does hold on the strings bm_set_b
can faithfully store: a non-empty octet string of at most 128 bytes, all
entries below 256, whose leading byte is nonzero.  Importing with bm_set_b
into a fresh bignum succeeds, and exporting into a buffer of exactly the
minimal length returns that length and reproduces the string. -/
theorem claim_C5_roundtrip_amended (s : List Nat) (hne : s ≠ [])
    (hlen : s.length ≤ 128) (hb : ∀ x ∈ s, x < 256) (h0 : s.getD 0 0 ≠ 0) :
    (bm_set_b bm_fresh s).1 = BM_SUCCESS ∧
    bm_get_b (bm_set_b bm_fresh s).2 s.length = ((s.length : Int), s) := by
  obtain ⟨hsucc, hWF, hsize, hmag, hsign⟩ := bm_set_b_fresh s hne hlen hb h0
  refine ⟨hsucc, ?_⟩
  have h1 : 1 ≤ s.length := List.length_pos.2 hne
  rw [bm_get_b_spec hWF s.length h1 (by omega)]
  rw [hmag, beBytes_beVal s hne h0 hb]
  rw [if_neg (by rw [hsign]; decide)]

/-- Closed witness for the amended C5 round trip, at the five-byte string
1 2 3 4 5. -/
theorem claim_C5_roundtrip_amended_witness :
    (bm_set_b bm_fresh [1, 2, 3, 4, 5]).1 = BM_SUCCESS ∧
    bm_get_b (bm_set_b bm_fresh [1, 2, 3, 4, 5]).2 ([1, 2, 3, 4, 5] : List Nat).length =
      ((([1, 2, 3, 4, 5] : List Nat).length : Int), [1, 2, 3, 4, 5]) :=
  claim_C5_roundtrip_amended [1, 2, 3, 4, 5] (by decide) (by decide) (by decide) (by decide)

/-- C8 (amended): for a well-formed bignum and a buffer of i bytes with
i at least 1, bm_get_b reports an error exactly when the buffer rounded
up to whole 32-bit words cannot hold all size words of a, not when the
minimal byte representation exceeds i.  When it does not error it returns
the minimal byte length of the magnitude, which can exceed i by up to 3,
and writes exactly that many bytes. -/
theorem claim_C8_getb_amended (a : bm) (i : Nat) (ha : WF a) (hi : 1 ≤ i) :
    ((bm_get_b a i).1 < 0 ↔ get_size_in_longs i < a.size) ∧
    (a.size ≤ get_size_in_longs i →
      (bm_get_b a i).1 = ((beBytes (magVal a)).length : Int) ∧
      (bm_get_b a i).1 ≤ (i : Int) + 3 ∧
      ((bm_get_b a i).2.length : Int) = (bm_get_b a i).1) := by
  constructor
  · constructor
    · intro hneg
      by_contra hfit
      push_neg at hfit
      rw [bm_get_b_spec ha i hi hfit] at hneg
      omega
    · intro hlt
      unfold bm_get_b
      rw [if_neg (by omega), if_pos hlt]
      decide
  · intro hfit
    rw [bm_get_b_spec ha i hi hfit]
    obtain ⟨hm, hl, hs1, hs2, hw, hsn, hc, hz, hk⟩ := ha
    refine ⟨rfl, ?_, ?_⟩
    · have hmlt : magVal a < 256 ^ (4 * a.size) := by
        rw [← wB_pow]
        exact magVal_lt_of_WF ⟨hm, hl, hs1, hs2, hw, hsn, hc, hz, hk⟩
      have hblen : (beBytes (magVal a)).length ≤ 4 * a.size :=
        beBytes_len_le (4 * a.size) (magVal a) hmlt (by omega)
      have h4 : 4 * a.size ≤ i + 3 := by
        unfold get_size_in_longs at hfit
        omega
      have hle : (beBytes (magVal a)).length ≤ i + 3 := le_trans hblen h4
      show ((beBytes (magVal a)).length : Int) ≤ (i : Int) + 3
      exact_mod_cast hle
    · by_cases hs : a.sign = BM_NEG
      · rw [if_pos hs]
        have hnl : (bm_neg_b (beBytes (magVal a))).length = (beBytes (magVal a)).length := by
          unfold bm_neg_b
          exact negBytes_length _
        rw [hnl]
      · rw [if_neg hs]

/-- Closed witness for the amended C8: the one-word bignum 258 and a
4-byte buffer, where bm_get_b succeeds and returns 2. -/
theorem claim_C8_getb_amended_witness :
    ((bm_get_b (mkbm 1 [258]) 4).1 < 0 ↔ get_size_in_longs 4 < (mkbm 1 [258]).size) ∧
    ((mkbm 1 [258]).size ≤ get_size_in_longs 4 →
      (bm_get_b (mkbm 1 [258]) 4).1 = ((beBytes (magVal (mkbm 1 [258]))).length : Int) ∧
      (bm_get_b (mkbm 1 [258]) 4).1 ≤ ((4 : Nat) : Int) + 3 ∧
      ((bm_get_b (mkbm 1 [258]) 4).2.length : Int) = (bm_get_b (mkbm 1 [258]) 4).1) :=
  claim_C8_getb_amended (mkbm 1 [258]) 4 (by decide) (by decide)

end Cryptolib
